import Mathlib

/-!
Verification of the memory-tracking tool server (Lab 14, `server.py`).

The development shallowly embeds the server's pure helpers directly
(secret redaction, attribute-filter building, tag JSON serialization,
validation, clamping) and models the remote vector-store service as an
explicit behaviour record: every remote call site reads its outcome from
that record, an `Except.error` outcome standing for a raised Python
exception and `Except.ok` for a normal return.  Tool operations return
`Except Err Dict`: `Except.ok d` models the operation returning the
mapping `d` to the dispatcher, `Except.error e` models an exception
propagating past the tool boundary.

Character classes of the redaction regexes are modelled over the ASCII
ranges the patterns themselves name (Python `\w`, `\s`, case folding
restricted to ASCII, which is the fragment the patterns use).
-/

/-! ## Basic value model: Python dict / JSON-like values -/

inductive JVal where
  | s (v : String)
  | b (v : Bool)
  | n (v : Int)
  | null
  | arr (vs : List JVal)
  | obj (kvs : List (String × JVal))
deriving Repr

/-- A Python dict with string keys, in insertion order. -/
abbrev Dict := List (String × JVal)

/-- Dictionary key lookup (first binding wins, as for a Python dict
whose keys are unique). -/
def dictGet (d : Dict) (k : String) : Option JVal :=
  match d with
  | [] => none
  | (k', v) :: rest => if k' = k then some v else dictGet rest k

/-- Model of a raised Python exception, carrying `str(e)`. -/
abbrev Err := String

/-! ## Character classes (ASCII fragment of Python `re` semantics) -/

/-- Python regex `\w` / word character for `\b`, ASCII fragment:
letters, digits, underscore. -/
def isWordChar (c : Char) : Bool :=
  ('a' ≤ c && c ≤ 'z') || ('A' ≤ c && c ≤ 'Z') || ('0' ≤ c && c ≤ '9') || c = '_'

/-- Python regex `\s`, ASCII fragment: space, tab, newline, carriage
return, vertical tab, form feed. -/
def isPySpace (c : Char) : Bool :=
  c = ' ' || c = '\t' || c = '\n' || c = '\r' || c = '\x0b' || c = '\x0c'

/-- Character class `[A-Za-z0-9\-\._~\+\/]` of the bearer-token patterns. -/
def isB64Class (c : Char) : Bool :=
  ('a' ≤ c && c ≤ 'z') || ('A' ≤ c && c ≤ 'Z') || ('0' ≤ c && c ≤ '9') ||
    c = '-' || c = '.' || c = '_' || c = '~' || c = '+' || c = '/'

/-- Character class `[0-9A-Z]` of the AWS access-key pattern. -/
def isUpperDigit (c : Char) : Bool :=
  ('A' ≤ c && c ≤ 'Z') || ('0' ≤ c && c ≤ '9')

/-- Character class `[^'\"\s]` for the value part of the key/token
assignment patterns. -/
def isValChar (c : Char) : Bool :=
  !(c = '\'' || c = '"' || isPySpace c)

/-- Wordness of the character at index `i` of `s`; out of bounds (start
and end of string) counts as non-word, as for Python `\b`. -/
def charWordAt (s : List Char) (i : Nat) : Bool :=
  match s.get? i with
  | some c => isWordChar c
  | none => false

/-- Word boundary `\b` between positions `p-1` and `p` of `s`. -/
def bAt (s : List Char) (p : Nat) : Bool :=
  charWordAt s (p - 1) != charWordAt s p

/-- Case-insensitive literal match (keyword given in lowercase):
returns the remainder when `s` starts with `kw`. -/
def stripCI : List Char → List Char → Option (List Char)
  | [], s => some s
  | _, [] => none
  | k :: ks, c :: cs => if c.toLower = k then stripCI ks cs else none

/-- Case-sensitive literal match: returns the remainder when `s`
starts with `kw`. -/
def stripCS : List Char → List Char → Option (List Char)
  | [], s => some s
  | _, [] => none
  | k :: ks, c :: cs => if c = k then stripCS ks cs else none

/-- Length of the maximal prefix run of characters satisfying `p`. -/
def runLen (p : Char → Bool) : List Char → Nat
  | [] => 0
  | c :: cs => if p c then runLen p cs + 1 else 0

/-! ## The five secret patterns (`_SECRET_PATTERNS`), hand-compiled

Each `tryX prevW s` decides whether the corresponding regex matches at
the start of `s` (with `prevW` the wordness of the preceding character,
`false` at the start of the string) and returns the matched length,
following the leftmost, greedy-with-backtracking semantics of `re`. -/

/-- Backtracking over the trailing `=*\b` of the bearer patterns:
try `base + j` equal signs for `j = eqs` down to `0`, accepting the
first end position with a word boundary. -/
def eqTrial (s : List Char) (base : Nat) : Nat → Option Nat
  | 0 => if bAt s base then some base else none
  | j + 1 => if bAt s (base + j + 1) then some (base + j + 1) else eqTrial s base j

/-- Backtracking over a shortened class run (after `=*` options are
exhausted): try end positions `pre + r` for `r` descending. -/
def classTrial (s : List Char) (pre : Nat) : Nat → Option Nat
  | 0 => none
  | r + 1 => if bAt s (pre + r + 1) then some (pre + r + 1) else classTrial s pre r

/-- Shared tail `\s+[A-Za-z0-9\-\._~\+\/]+=*\b` of the two bearer
patterns, matched in `s` starting at offset `off`; returns the total
matched length. -/
def bearerTail (s : List Char) (off : Nat) : Option Nat :=
  let w := runLen isPySpace (s.drop off)
  if w = 0 then none else
  let cl := runLen isB64Class (s.drop (off + w))
  if cl = 0 then none else
  let eqs := runLen (fun c => c = '=') (s.drop (off + w + cl))
  match eqTrial s (off + w + cl) eqs with
  | some e => some e
  | none => classTrial s (off + w) (cl - 1)

/-- Pattern `(?i)\bAuthorization:\s*Bearer\s+[A-Za-z0-9\-\._~\+\/]+=*\b`. -/
def tryAuthorization (prevW : Bool) (s : List Char) : Option Nat :=
  if prevW then none else
  match stripCI "authorization:".data s with
  | none => none
  | some r1 =>
    let w0 := runLen isPySpace r1
    match stripCI "bearer".data (r1.drop w0) with
    | none => none
    | some _ => bearerTail s (14 + w0 + 6)

/-- Pattern `(?i)\bBearer\s+[A-Za-z0-9\-\._~\+\/]+=*\b`. -/
def tryBearer (prevW : Bool) (s : List Char) : Option Nat :=
  if prevW then none else
  match stripCI "bearer".data s with
  | none => none
  | some _ => bearerTail s 6

/-- Pattern `\bAKIA[0-9A-Z]{16}\b` (case-sensitive). -/
def tryAkia (prevW : Bool) (s : List Char) : Option Nat :=
  if prevW then none else
  match stripCS "AKIA".data s with
  | none => none
  | some r1 =>
    if (r1.take 16).length = 16 && (r1.take 16).all isUpperDigit then
      if bAt s 20 then some 20 else none
    else none

/-- Shared tail `\s*[:=]\s*['\"]?[^'\"\s]+` of the key/token assignment
patterns, matched in `s` starting at offset `off`. -/
def sepValueTail (s : List Char) (off : Nat) : Option Nat :=
  let m := runLen isPySpace (s.drop off)
  match s.get? (off + m) with
  | none => none
  | some c =>
    if c = ':' || c = '=' then
      let m2 := runLen isPySpace (s.drop (off + m + 1))
      let q := off + m + 1 + m2
      match s.get? q with
      | none => none
      | some c2 =>
        if c2 = '\'' || c2 = '"' then
          let v := runLen isValChar (s.drop (q + 1))
          if v = 0 then none else some (q + 1 + v)
        else
          let v := runLen isValChar (s.drop q)
          if v = 0 then none else some (q + v)
    else none

/-- The `key\b` part followed by the assignment tail, at offset `p`. -/
def keyTail (s : List Char) (p : Nat) : Option Nat :=
  match stripCI "key".data (s.drop p) with
  | none => none
  | some _ => if bAt s (p + 3) then sepValueTail s (p + 3) else none

/-- After the `(openai|api)` group of length `g`: optional `[-_ ]`
separator (with backtracking to the empty separator), then `key...`. -/
def apiKeyFrom (s : List Char) (g : Nat) : Option Nat :=
  match s.get? g with
  | some c =>
    if c = '-' || c = '_' || c = ' ' then
      match keyTail s (g + 1) with
      | some e => some e
      | none => keyTail s g
    else keyTail s g
  | none => keyTail s g

/-- Pattern `(?i)\b(openai|api)[-_ ]?key\b\s*[:=]\s*['\"]?[^'\"\s]+`. -/
def tryApiKey (prevW : Bool) (s : List Char) : Option Nat :=
  if prevW then none else
  match stripCI "openai".data s with
  | some _ =>
    match apiKeyFrom s 6 with
    | some e => some e
    | none =>
      match stripCI "api".data s with
      | some _ => apiKeyFrom s 3
      | none => none
  | none =>
    match stripCI "api".data s with
    | some _ => apiKeyFrom s 3
    | none => none

/-- Pattern `(?i)\btoken\b\s*[:=]\s*['\"]?[^'\"\s]+`. -/
def tryToken (prevW : Bool) (s : List Char) : Option Nat :=
  if prevW then none else
  match stripCI "token".data s with
  | none => none
  | some _ => if bAt s 5 then sepValueTail s 5 else none

/-- The fixed replacement text of `_redact_secrets`. -/
def redactedChars : List Char := "[REDACTED]".data

/-- One `pat.sub("[REDACTED]", ...)` pass: scan left to right, replace
each leftmost non-overlapping match, resume after its end.  `prevW`
tracks the wordness of the character preceding the current position in
the original string (`false` at the start); `skip` counts characters of
a replaced match still to be consumed (a match of length `n + 1` emits
the replacement, consumes its first character, and sets `skip := n`). -/
def scanP (tryM : Bool → List Char → Option Nat) : Bool → Nat → List Char → List Char
  | _, _, [] => []
  | _, k + 1, c :: rest => scanP tryM (isWordChar c) k rest
  | prevW, 0, c :: rest =>
    match tryM prevW (c :: rest) with
    | some (n + 1) => redactedChars ++ scanP tryM (isWordChar c) n rest
    | _ => c :: scanP tryM (isWordChar c) 0 rest

/-- A whole substitution pass of one pattern, from the start of the
string. -/
def subPattern (tryM : Bool → List Char → Option Nat) (s : List Char) : List Char :=
  scanP tryM false 0 s

/-- The ordered substitution pipeline of `_redact_secrets` on character
lists: each pattern runs against the already-redacted output of the
previous ones. -/
def redactL (s : List Char) : List Char :=
  subPattern tryToken
    (subPattern tryApiKey
      (subPattern tryAkia
        (subPattern tryBearer
          (subPattern tryAuthorization s))))

/-- `_redact_secrets`: replaces every `_SECRET_PATTERNS` match with
`[REDACTED]`, patterns applied in order. -/
def _redact_secrets (t : String) : String :=
  ⟨redactL t.data⟩

/-! ## Tag serialization (`json.dumps(tags, ensure_ascii=False)`) -/

/-- Lowercase hexadecimal digit. -/
def hexDigit (n : Nat) : Char :=
  if n < 10 then Char.ofNat ('0'.toNat + n) else Char.ofNat ('a'.toNat + (n - 10))

/-- JSON string-character escaping as produced by `json.dumps` with
`ensure_ascii=False`: only the two mandatory escapes, the C escapes for
control characters, and `\u00XX` for the remaining control range. -/
def jsonEscapeChar (c : Char) : List Char :=
  if c = '"' then ['\\', '"']
  else if c = '\\' then ['\\', '\\']
  else if c = '\n' then ['\\', 'n']
  else if c = '\r' then ['\\', 'r']
  else if c = '\t' then ['\\', 't']
  else if c = '\x08' then ['\\', 'b']
  else if c = '\x0c' then ['\\', 'f']
  else if c.toNat < 32 then ['\\', 'u', '0', '0', hexDigit (c.toNat / 16), hexDigit (c.toNat % 16)]
  else [c]

/-- One JSON string literal. -/
def jsonString (s : String) : String :=
  ⟨'"' :: (s.data.map jsonEscapeChar).flatten ++ ['"']⟩

/-- `json.dumps` of a list of strings with default separators:
elements joined by a comma and a space inside square brackets. -/
def pyJsonDumpsList (tags : List String) : String :=
  "[" ++ String.intercalate ", " (tags.map jsonString) ++ "]"

/-! ## Attribute filter builder (`_build_attribute_filter`) -/

/-- Python truthiness of an `Optional[str]`: `None` and the empty
string are falsy. -/
def truthyStr : Option String → Bool
  | none => false
  | some s => !(s == "")

/-- Python truthiness of an `Optional[List[str]]`: `None` and the
empty list are falsy. -/
def truthyList : Option (List String) → Bool
  | none => false
  | some l => !l.isEmpty

/-- An equality leaf of the attribute-filter tree. -/
def eqLeaf (k v : String) : JVal :=
  .obj [("type", .s "eq"), ("key", .s k), ("value", .s v)]

/-- `_build_attribute_filter`: appends one equality leaf per truthy
input, in the source's order (`user_id`, `session_id`, `memory_type`,
`tags`); returns `None` for no leaves, the bare leaf for one, and an
`and` node otherwise.  The parameter order mirrors the source
signature `(user_id, session_id, tags, memory_type)`. -/
def _build_attribute_filter (user_id : Option String) (session_id : Option String)
    (tags : Option (List String)) (memory_type : Option String) : Option JVal :=
  let filters : List JVal :=
    (if truthyStr user_id then [eqLeaf "user_id" (user_id.getD "")] else []) ++
    (if truthyStr session_id then [eqLeaf "session_id" (session_id.getD "")] else []) ++
    (if truthyStr memory_type then [eqLeaf "type" (memory_type.getD "")] else []) ++
    (if truthyList tags then [eqLeaf "tags_json" (pyJsonDumpsList (tags.getD []))] else [])
  match filters with
  | [] => none
  | [f] => some f
  | fs => some (.obj [("type", .s "and"), ("filters", .arr fs)])

/-! ## Remote-service behaviour model

Every remote round trip an operation can make reads its outcome from a
`Behavior` record; `Except.error e` stands for the call raising an
exception whose `str` is `e`. -/

/-- One vector store as returned by `client.vector_stores.list`. -/
structure Store where
  id : String
  name : String

/-- One page of the store listing; `has_more` and `last_id` model
`getattr(page, "has_more", False)` and `getattr(page, "last_id", None)`. -/
structure StorePage where
  data : List Store
  has_more : Bool
  last_id : Option String

/-- One text chunk inside a search result item; `ctype` models
`getattr(c, "type", None)`. -/
structure SChunk where
  ctype : Option String
  text : String

/-- One matched document of `client.vector_stores.search`. -/
structure SItem where
  file_id : String
  filename : String
  score : JVal
  attributes : Option JVal
  content : List SChunk

/-- The search response; optional fields model `getattr` with a
default. -/
structure SearchResults where
  data : List SItem
  search_query : Option String
  has_more : Option Bool

/-- Outcome of the first `client.vector_stores.search(...)` attempt
(with the `filters` parameter name): a normal return, a `TypeError`
(signature mismatch), or any other exception. -/
inductive PrimaryOutcome where
  | ok (r : SearchResults)
  | typeError
  | err (e : Err)

/-- One entry of `client.vector_stores.files.list`. -/
structure FileRef where
  id : String

/-- A page of the file listing. -/
structure FilePage where
  data : List FileRef
  has_more : Option Bool
  last_id : Option String

/-- The per-file detail from `client.vector_stores.files.retrieve`. -/
structure FileDetail where
  id : String
  created_at : Option JVal
  status : Option JVal
  attributes : Option Dict

/-- One parsed content chunk of `files.content`, a mapping accessed
with `.get`. -/
structure CChunk where
  ctype : Option String
  text : Option String

/-- Outcome of `client.vector_stores.files.content`: a normal return
(whose `content` key may be absent), an `AttributeError` (SDK does not
expose the method), or any other exception. -/
inductive ContentOutcome where
  | ok (chunks : Option (List CChunk))
  | attrError
  | err (e : Err)

/-- The remote service's behaviour, one field per call site.  `pages`
is the sequence of responses successive `vector_stores.list` calls
receive inside one paging loop. -/
structure Behavior where
  pages : List (Except Err StorePage)
  createResp : Except Err String
  uploadResp : Except Err String
  updateResp : Except Err Unit
  searchPrimary : PrimaryOutcome
  searchAlternate : Except Err SearchResults
  filesListResp : Except Err FilePage
  retrieveResp : String → Except Err FileDetail
  contentResp : ContentOutcome
  deleteResp : Except Err (Option Bool)

/-- Environment configuration read at process start. -/
structure Config where
  storeName : String
  maxChars : Int
  redactDefault : Bool

/-- Impure-but-deterministic primitives consumed by `save_memory`:
the UTC timestamp string, the Unix timestamp, and SHA-256 hex digest
(an external pure primitive none of the claims depend on). -/
structure Env where
  nowIso : String
  ts : Nat
  sha256 : String → String

/-! ## Collection resolver (`_get_or_create_vector_store_id`) -/

/-- Remote-call counters for the resolver: listing calls, create
calls, and create calls that returned successfully. -/
structure RCounts where
  lists : Nat
  creates : Nat
  createOks : Nat

/-- First store of the page whose name equals the configured name. -/
def findStore (name : String) : List Store → Option String
  | [] => none
  | st :: rest => if st.name = name then some st.id else findStore name rest

/-- The paging loop of the resolver: page through the listing looking
for the configured name, stopping when `has_more` is falsy or the
continuation cursor is falsy; `Except.ok none` means exhausted without
a match (so a create follows).  Running out of modelled responses while
the loop would call again is modelled as the call raising. -/
def findLoop (name : String) : List (Except Err StorePage) → Except Err (Option String) × Nat
  | [] => (Except.error "vector_stores.list: no response", 0)
  | resp :: rest =>
    match resp with
    | .error e => (.error e, 1)
    | .ok page =>
      match findStore name page.data with
      | some id => (.ok (some id), 1)
      | none =>
        if !page.has_more then (.ok none, 1)
        else
          match page.last_id with
          | none => (.ok none, 1)
          | some a =>
            if a = "" then (.ok none, 1)
            else
              let r := findLoop name rest
              (r.1, r.2 + 1)

/-- Python truthiness of the cached identifier (the fast-path test
`if _vector_store_id_cache:`). -/
def truthyCache : Option String → Bool
  | none => false
  | some s => !(s == "")

/-- `_get_or_create_vector_store_id` as a state transformer on the
cache: fast path on a truthy cache; otherwise page through the
listing, caching a match, else create and cache.  Transport errors
propagate uncaught (`Except.error`), leaving the cache unset. -/
def _get_or_create_vector_store_id (cfg : Config) (b : Behavior) (cache : Option String) :
    Except Err String × Option String × RCounts :=
  if truthyCache cache then
    (.ok (cache.getD ""), cache, ⟨0, 0, 0⟩)
  else
    match findLoop cfg.storeName b.pages with
    | (.error e, n) => (.error e, cache, ⟨n, 0, 0⟩)
    | (.ok (some id), n) => (.ok id, some id, ⟨n, 0, 0⟩)
    | (.ok none, n) =>
      match b.createResp with
      | .error e => (.error e, cache, ⟨n, 1, 0⟩)
      | .ok id => (.ok id, some id, ⟨n, 1, 1⟩)

/-- A sequence of `k` resolver invocations in one process: the list of
per-call results, the final cache, and the accumulated remote-call
counters. -/
def resolveSeq (cfg : Config) (b : Behavior) (cache : Option String) :
    Nat → List (Except Err String) × Option String × RCounts
  | 0 => ([], cache, ⟨0, 0, 0⟩)
  | k + 1 =>
    let s1 := _get_or_create_vector_store_id cfg b cache
    let s2 := resolveSeq cfg b s1.2.1 k
    (s1.1 :: s2.1, s2.2.1,
      ⟨s1.2.2.lists + s2.2.2.lists, s1.2.2.creates + s2.2.2.creates,
        s1.2.2.createOks + s2.2.2.createOks⟩)


/-! ## Tool operations

Each operation returns `(result, cache, log)`: `result` is
`Except.ok d` when the tool returns the mapping `d`, `Except.error e`
when an exception propagates past the tool boundary; `cache` is the
resolver cache after the call; `log` counts the remote calls made. -/

/-- Per-operation remote-call log, plus the filter and result bound
actually handed to the similarity search. -/
structure OpLog where
  res : RCounts
  uploads : Nat
  updates : Nat
  searches : Nat
  altSearches : Nat
  filesLists : Nat
  retrieves : Nat
  contents : Nat
  deletes : Nat
  filterSent : Option (Option JVal)
  maxSent : Option Int

/-- The log of an operation that made no remote call. -/
def emptyLog : OpLog := ⟨⟨0, 0, 0⟩, 0, 0, 0, 0, 0, 0, 0, 0, none, none⟩

/-- Total number of remote-service calls recorded in a log. -/
def logTotal (l : OpLog) : Nat :=
  l.res.lists + l.res.creates + l.uploads + l.updates + l.searches + l.altSearches +
    l.filesLists + l.retrieves + l.contents + l.deletes

/-- Python `not s.strip()`: the string is empty or all whitespace. -/
def isBlank (s : String) : Bool := s.data.all isPySpace

/-- `re.sub(r"[^a-zA-Z0-9_\-]", "_", user_id)`. -/
def sanitizeUser (s : String) : String :=
  ⟨s.data.map (fun c =>
    if ('a' ≤ c && c ≤ 'z') || ('A' ≤ c && c ≤ 'Z') || ('0' ≤ c && c ≤ '9') ||
        c = '_' || c = '-' then c else '_')⟩

/-- `save_memory`: validate, redact, resolve the store, then the
two-phase write (upload, then attribute update) inside the `try`
block; upload and update failures are caught and returned as tagged
error mappings, while validation never touches the remote service and
resolver failures propagate uncaught. -/
def save_memory (cfg : Config) (env : Env) (b : Behavior) (cache : Option String)
    (memory : String) (user_id : String) (session_id : Option String)
    (memory_type : String) (tags : Option (List String)) (redact_flag : Option Bool) :
    Except Err Dict × Option String × OpLog :=
  if isBlank memory then
    (.ok [("status", .s "error"), ("error", .s "memory deve ser uma string não-vazia")],
      cache, emptyLog)
  else if (memory.length : Int) > cfg.maxChars then
    (.ok [("status", .s "error"),
          ("error", .s ("memory excede o limite do lab (" ++ toString cfg.maxChars ++ " chars)."))],
      cache, emptyLog)
  else
    let do_redact := redact_flag.getD cfg.redactDefault
    let cleaned := if do_redact then _redact_secrets memory else memory
    match _get_or_create_vector_store_id cfg b cache with
    | (.error e, c1, n1) => (.error e, c1, { emptyLog with res := n1 })
    | (.ok vsid, c1, n1) =>
      let mem_hash := env.sha256 cleaned
      let _filename := "memory_" ++ (sanitizeUser user_id).take 32 ++ "_" ++
        toString env.ts ++ ".txt"
      match b.uploadResp with
      | .error e =>
        (.ok [("status", .s "error"), ("error", .s e)], c1,
          { emptyLog with res := n1, uploads := 1 })
      | .ok file_id =>
        let attributes : Dict :=
          [("user_id", .s (user_id.take 64)), ("type", .s (memory_type.take 64)),
           ("timestamp_utc", .s (env.nowIso.take 64)), ("sha256", .s (mem_hash.take 64)),
           ("redacted", .b do_redact)] ++
          (if truthyStr session_id then [("session_id", .s ((session_id.getD "").take 64))]
           else []) ++
          (if truthyList tags then
            [("tags_json", .s ((pyJsonDumpsList (tags.getD [])).take 512))] else [])
        match b.updateResp with
        | .error e =>
          (.ok [("status", .s "error"), ("error", .s e)], c1,
            { emptyLog with res := n1, uploads := 1, updates := 1 })
        | .ok _ =>
          (.ok [("status", .s "saved"), ("vector_store_id", .s vsid),
                ("file_id", .s file_id), ("sha256", .s mem_hash),
                ("attributes", .obj attributes)], c1,
            { emptyLog with res := n1, uploads := 1, updates := 1 })

/-- Text chunks of one search item (`type == "text"` only). -/
def itemTexts (item : SItem) : List String :=
  (item.content.filter (fun c => c.ctype == some "text")).map (fun c => c.text)

/-- One full-mode result entry. -/
def fullItem (item : SItem) : JVal :=
  .obj [("file_id", .s item.file_id), ("filename", .s item.filename),
        ("score", item.score), ("attributes", item.attributes.getD .null),
        ("content_texts", .arr ((itemTexts item).map JVal.s))]

/-- Result shaping shared by both search call attempts: full mode
keeps one entry per document, compact mode flattens all text chunks. -/
def shapeResults (vsid query : String) (return_full_items : Bool) (results : SearchResults) :
    Dict :=
  if return_full_items then
    [("status", .s "ok"), ("vector_store_id", .s vsid),
     ("search_query", .s (results.search_query.getD query)),
     ("results", .arr (results.data.map fullItem)),
     ("has_more", .b (results.has_more.getD false))]
  else
    [("status", .s "ok"), ("vector_store_id", .s vsid),
     ("search_query", .s (results.search_query.getD query)),
     ("results", .arr (((results.data.map itemTexts).flatten).map JVal.s)),
     ("has_more", .b (results.has_more.getD false))]

/-- `search_memory`: validate the query, clamp `max_results` into
`[1, 50]`, resolve the store, build the attribute filter, then attempt
the search with the `filters` parameter name, falling back to
`attribute_filter` only on a `TypeError`; any other failure (of either
attempt) propagates uncaught. -/
def search_memory (cfg : Config) (env : Env) (b : Behavior) (cache : Option String)
    (query : String) (user_id : String) (session_id : Option String)
    (memory_type : Option String) (tags : Option (List String)) (max_results : Int)
    (rewrite_query : Bool) (return_full_items : Bool) :
    Except Err Dict × Option String × OpLog :=
  if isBlank query then
    (.ok [("status", .s "error"), ("error", .s "query deve ser uma string não-vazia")],
      cache, emptyLog)
  else
    let bounded := max 1 (min max_results 50)
    match _get_or_create_vector_store_id cfg b cache with
    | (.error e, c1, n1) => (.error e, c1, { emptyLog with res := n1 })
    | (.ok vsid, c1, n1) =>
      let attribute_filter := _build_attribute_filter (some user_id) session_id tags memory_type
      match b.searchPrimary with
      | .ok results =>
        (.ok (shapeResults vsid query return_full_items results), c1,
          { emptyLog with
            res := n1
            searches := 1
            filterSent := some attribute_filter
            maxSent := some bounded })
      | .err e =>
        (.error e, c1,
          { emptyLog with
            res := n1
            searches := 1
            filterSent := some attribute_filter
            maxSent := some bounded })
      | .typeError =>
        match b.searchAlternate with
        | .error e =>
          (.error e, c1,
            { emptyLog with
              res := n1
              searches := 1
              altSearches := 1
              filterSent := some attribute_filter
              maxSent := some bounded })
        | .ok results =>
          (.ok (shapeResults vsid query return_full_items results), c1,
            { emptyLog with
              res := n1
              searches := 1
              altSearches := 1
              filterSent := some attribute_filter
              maxSent := some bounded })

/-- The client-side predicate of `list_memories`: keep the file unless
a truthy `user_id` was supplied and the fetched attributes do not map
`user_id` to that exact string. -/
def keepFile (user_id : Option String) (attrs : Dict) : Bool :=
  if truthyStr user_id then
    match dictGet attrs "user_id" with
    | some (JVal.s v) => v == user_id.getD ""
    | _ => false
  else true

/-- One listing entry as built in the loop body. -/
def listItem (detail : FileDetail) (attrs : Dict) : JVal :=
  .obj [("file_id", .s detail.id), ("created_at", detail.created_at.getD .null),
        ("status", detail.status.getD .null), ("attributes", .obj attrs)]

/-- The per-file loop of `list_memories`: retrieve each file's detail
(an exception aborts the whole operation uncaught), apply the
client-side `user_id` post-filter, and collect the kept entries.
Returns the items and the number of retrieve calls made. -/
def listLoop (b : Behavior) (user_id : Option String) :
    List FileRef → Except Err (List JVal) × Nat
  | [] => (.ok [], 0)
  | f :: rest =>
    match b.retrieveResp f.id with
    | .error e => (.error e, 1)
    | .ok detail =>
      let attrs := detail.attributes.getD []
      let tail := listLoop b user_id rest
      match tail.1 with
      | .error e => (.error e, tail.2 + 1)
      | .ok items =>
        if keepFile user_id attrs then (.ok (listItem detail attrs :: items), tail.2 + 1)
        else (.ok items, tail.2 + 1)

/-- `list_memories`: resolve the store, clamp the page limit into
`[1, 100]`, fetch one listing page, re-fetch each file's attributes,
post-filter client-side by `user_id`, and report the unfiltered page's
pagination metadata next to the filtered count.  No failure here is
caught: listing and retrieve exceptions propagate. -/
def list_memories (cfg : Config) (env : Env) (b : Behavior) (cache : Option String)
    (user_id : Option String) (limit : Int) (status_filter : Option String) :
    Except Err Dict × Option String × OpLog :=
  match _get_or_create_vector_store_id cfg b cache with
  | (.error e, c1, n1) => (.error e, c1, { emptyLog with res := n1 })
  | (.ok vsid, c1, n1) =>
    let _bounded := max 1 (min limit 100)
    match b.filesListResp with
    | .error e => (.error e, c1, { emptyLog with res := n1, filesLists := 1 })
    | .ok page =>
      let loop := listLoop b user_id page.data
      match loop.1 with
      | .error e =>
        (.error e, c1, { emptyLog with res := n1, filesLists := 1, retrieves := loop.2 })
      | .ok items =>
        (.ok [("status", .s "ok"), ("vector_store_id", .s vsid),
              ("count", .n items.length), ("items", .arr items),
              ("has_more", .b (page.has_more.getD false)),
              ("last_id", match page.last_id with | some s => .s s | none => .null)],
          c1, { emptyLog with res := n1, filesLists := 1, retrieves := loop.2 })

/-- `get_memory_content`: resolve, retrieve metadata (uncaught), then
inside the `try` fetch parsed content; an `AttributeError` (missing
SDK capability) and any other content failure are caught and returned
as tagged error mappings. -/
def get_memory_content (cfg : Config) (env : Env) (b : Behavior) (cache : Option String)
    (file_id : String) : Except Err Dict × Option String × OpLog :=
  match _get_or_create_vector_store_id cfg b cache with
  | (.error e, c1, n1) => (.error e, c1, { emptyLog with res := n1 })
  | (.ok vsid, c1, n1) =>
    match b.retrieveResp file_id with
    | .error e => (.error e, c1, { emptyLog with res := n1, retrieves := 1 })
    | .ok detail =>
      let attrs := detail.attributes.getD []
      match b.contentResp with
      | .ok chunkOpt =>
        let chunks := chunkOpt.getD []
        let texts := (chunks.filter (fun c => c.ctype == some "text")).map (fun c => c.text)
        let content_texts := (texts.filterMap id).filter (fun t => !(t == ""))
        (.ok [("status", .s "ok"), ("vector_store_id", .s vsid), ("file_id", .s file_id),
              ("attributes", .obj attrs),
              ("content_texts", .arr (content_texts.map JVal.s))], c1,
          { emptyLog with res := n1, retrieves := 1, contents := 1 })
      | .attrError =>
        (.ok [("status", .s "error"),
              ("error", .s "Seu openai SDK não expõe client.vector_stores.files.content(...). Atualize o pacote openai."),
              ("vector_store_id", .s vsid), ("file_id", .s file_id),
              ("attributes", .obj attrs)], c1,
          { emptyLog with res := n1, retrieves := 1, contents := 1 })
      | .err e =>
        (.ok [("status", .s "error"), ("error", .s e), ("vector_store_id", .s vsid),
              ("file_id", .s file_id)], c1,
          { emptyLog with res := n1, retrieves := 1, contents := 1 })

/-- `delete_memory`: resolve (uncaught), then delete inside the `try`;
a deletion failure is caught and returned as a tagged error mapping. -/
def delete_memory (cfg : Config) (env : Env) (b : Behavior) (cache : Option String)
    (file_id : String) : Except Err Dict × Option String × OpLog :=
  match _get_or_create_vector_store_id cfg b cache with
  | (.error e, c1, n1) => (.error e, c1, { emptyLog with res := n1 })
  | (.ok vsid, c1, n1) =>
    match b.deleteResp with
    | .ok d =>
      (.ok [("status", .s "ok"), ("vector_store_id", .s vsid), ("file_id", .s file_id),
            ("deleted", .b (d.getD true))], c1,
        { emptyLog with res := n1, deletes := 1 })
    | .error e =>
      (.ok [("status", .s "error"), ("error", .s e), ("vector_store_id", .s vsid),
            ("file_id", .s file_id)], c1,
        { emptyLog with res := n1, deletes := 1 })

/-! ## Auxiliary definitions for the verification -/

/-- Whether a modelled call returned normally (`Except.ok`). -/
def isOkE {α : Type} : Except Err α → Bool
  | .ok _ => true
  | .error _ => false

/-- Modelled from the claim's wording, for comparison with the source
builder: one equality leaf per non-empty input, in the fixed order
(user_id, session_id, type, tags), the tags leaf comparing `tags_json`
against the JSON serialization of the tag list. -/
def specLeaves (user_id session_id memory_type : Option String)
    (tags : Option (List String)) : List JVal :=
  ([(truthyStr user_id, eqLeaf "user_id" (user_id.getD "")),
    (truthyStr session_id, eqLeaf "session_id" (session_id.getD "")),
    (truthyStr memory_type, eqLeaf "type" (memory_type.getD "")),
    (truthyList tags, eqLeaf "tags_json" (pyJsonDumpsList (tags.getD [])))]).filterMap
    (fun p => if p.1 then some p.2 else none)

/-- Modelled from the claim's wording: zero leaves give a null filter,
exactly one gives the bare leaf verbatim, two or more give a
conjunction node over the leaf list. -/
def filterSpec (user_id session_id memory_type : Option String)
    (tags : Option (List String)) : Option JVal :=
  let leaves := specLeaves user_id session_id memory_type tags
  if leaves.length = 0 then none
  else if leaves.length = 1 then leaves.head?
  else some (.obj [("type", .s "and"), ("filters", .arr leaves)])

/-- The behaviour only hands out non-empty identifiers (as the real
service does): store ids on listing pages and the created id. -/
def goodIdsB (b : Behavior) : Bool :=
  (b.pages.all (fun p => match p with
    | .ok page => page.data.all (fun st => !(st.id == ""))
    | .error _ => true)) &&
  (match b.createResp with | .ok id => !(id == "") | .error _ => true)

/-- The cache is unset or holds a non-empty identifier (the only
states reachable from startup, where an empty environment value is
normalized to unset by `or None`). -/
def goodCache : Option String → Bool
  | none => true
  | some s => !(s == "")

/-- Substring test: does `needle` occur contiguously in the list? -/
def containsSub (needle : List Char) : List Char → Bool
  | [] => needle.isEmpty
  | c :: rest => needle.isPrefixOf (c :: rest) || containsSub needle rest

/-- The probe secret of the testable property: `Bearer abc123`. -/
def bearerTarget : List Char := "Bearer abc123".data

/-- Every occurrence of `Bearer abc123` in the scanned text sits at a
word boundary: `w` is the wordness of the character preceding the
current position (`false` at the start of the string). -/
def goodOccsB (w : Bool) : List Char → Bool
  | [] => true
  | c :: rest =>
    (!(bearerTarget.isPrefixOf (c :: rest)) || !w) && goodOccsB (isWordChar c) rest

/-! ## Concrete fixtures (configuration, environment, behaviours) -/

/-- Default configuration: store name and limits as shipped. -/
def cfgDef : Config := ⟨"MEMORIES_STORE", 8000, true⟩

/-- A fixed environment for concrete runs (the SHA-256 primitive is
irrelevant to every claim and stubbed by a constant). -/
def envDef : Env := ⟨"2024-01-01T00:00:00+00:00", 1700000000, fun _ => "h"⟩

/-- An empty search response. -/
def srDef : SearchResults := ⟨[], none, none⟩

/-- A benign behaviour: one listing page naming the store, successful
uploads, updates, searches, retrieves, content and deletes. -/
def bBase : Behavior where
  pages := [.ok ⟨[⟨"vs_1", "MEMORIES_STORE"⟩], false, none⟩]
  createResp := .ok "vs_new"
  uploadResp := .ok "file_1"
  updateResp := .ok ()
  searchPrimary := .ok srDef
  searchAlternate := .ok srDef
  filesListResp := .ok ⟨[], none, none⟩
  retrieveResp := fun i => .ok ⟨i, none, none, none⟩
  contentResp := .ok (some [])
  deleteResp := .ok (some true)

/-- Behaviour whose file-listing call raises. -/
def b1 : Behavior := { bBase with filesListResp := .error "boom" }

/-- Behaviour where the upload succeeds and the attribute update
raises (phase 2 of the two-phase write fails). -/
def b2 : Behavior := { bBase with uploadResp := .ok "file_123", updateResp := .error "update failed" }

/-- Behaviour with an empty store listing and a failing create call. -/
def b3 : Behavior := { bBase with
  pages := [.ok ⟨[], false, none⟩]
  createResp := .error "create failed" }

/-- One-file listing page with pagination metadata. -/
def pageC4 : FilePage := ⟨[⟨"f1"⟩], some true, some "f1"⟩

/-- Behaviour for the list scenario: the single stored document's
attributes carry `user_id = "u1"`. -/
def b4 : Behavior := { bBase with
  filesListResp := .ok pageC4
  retrieveResp := fun i => .ok ⟨i, none, none, some [("user_id", .s "u1")]⟩ }

/-- Behaviour whose primary search attempt fails with a `TypeError`. -/
def b9 : Behavior := { bBase with searchPrimary := .typeError }

/-! ## Resolver lemmas -/


/-! ## C6 infrastructure: pointwise no-match predicate for one pattern
over a string, threading the wordness of the preceding character exactly
as the scanner does. -/

def noMat (r : Option Nat) : Prop := r = none ∨ r = some 0

def noMatchB (tryM : Bool → List Char → Option Nat) (w : Bool) : List Char → Prop
  | [] => True
  | c :: rest => noMat (tryM w (c :: rest)) ∧ noMatchB tryM (isWordChar c) rest

/-- Shape of the decidable non-empty-id behaviour predicate. -/
theorem goodIdsB_spec (b : Behavior) (h : goodIdsB b = true) :
    (∀ p ∈ b.pages, ∀ page, p = Except.ok page → ∀ st ∈ page.data, st.id ≠ "") ∧
    (∀ id, b.createResp = .ok id → id ≠ "") := by
  simp [goodIdsB] at h
  constructor
  · intro p hp page hpage st hst
    have := h.1 p hp
    subst hpage
    simp at this
    exact this st hst
  · intro id hid
    have := h.2
    rw [hid] at this
    simpa using this

/-- The lock-free fast path: a truthy cache is returned unchanged with
no remote calls. -/
theorem resolver_fastPath (cfg : Config) (b : Behavior) (c : Option String)
    (h : truthyCache c = true) :
    _get_or_create_vector_store_id cfg b c = (.ok (c.getD ""), c, ⟨0, 0, 0⟩) := by
  simp [_get_or_create_vector_store_id, h]

/-- A store found by name on a page with non-empty ids has a non-empty
id. -/
theorem findStore_good (name : String) (l : List Store)
    (hl : ∀ st ∈ l, st.id ≠ "") (id : String)
    (h : findStore name l = some id) : id ≠ "" := by
  induction l with
  | nil => simp [findStore] at h
  | cons st rest ih =>
    rw [findStore] at h
    by_cases he : st.name = name
    · rw [if_pos he] at h
      cases h
      exact hl st (List.mem_cons_self st rest)
    · rw [if_neg he] at h
      exact ih (fun x hx => hl x (List.mem_cons_of_mem st hx)) h

/-- An identifier produced by the paging loop is non-empty when the
behaviour only hands out non-empty ids. -/
theorem findLoop_good (name : String) (pages : List (Except Err StorePage))
    (hp : ∀ p ∈ pages, ∀ page, p = Except.ok page → ∀ st ∈ page.data, st.id ≠ "")
    (id : String) (h : (findLoop name pages).1 = .ok (some id)) : id ≠ "" := by
  induction pages with
  | nil => simp [findLoop] at h
  | cons resp rest ih =>
    cases resp with
    | error e => simp [findLoop] at h
    | ok page =>
      simp only [findLoop] at h
      rcases hf : findStore name page.data with _ | fid
      · rw [hf] at h
        by_cases hm : page.has_more = true
        · simp [hm] at h
          rcases hl : page.last_id with _ | a
          · rw [hl] at h; simp at h
          · rw [hl] at h
            by_cases ha : a = ""
            · simp [ha] at h
            · simp [ha] at h
              exact ih (fun p hpp => hp p (List.mem_cons_of_mem _ hpp)) h
        · simp [Bool.not_eq_true] at hm
          simp [hm] at h
      · rw [hf] at h
        simp at h
        subst h
        exact findStore_good name page.data
          (hp (Except.ok page) (List.mem_cons_self _ _) page rfl) fid hf

/-- Resolver step on an untruthy cache when the loop finds the store. -/
theorem step_found (cfg : Config) (b : Behavior) (c : Option String) (id : String) (n : Nat)
    (h1 : truthyCache c = false)
    (h2 : findLoop cfg.storeName b.pages = (.ok (some id), n)) :
    _get_or_create_vector_store_id cfg b c = (.ok id, some id, ⟨n, 0, 0⟩) := by
  simp [_get_or_create_vector_store_id, h1, h2]

/-- Resolver step when the listing raises: the error propagates and
the cache stays as it was. -/
theorem step_find_err (cfg : Config) (b : Behavior) (c : Option String) (e : Err) (n : Nat)
    (h1 : truthyCache c = false)
    (h2 : findLoop cfg.storeName b.pages = (.error e, n)) :
    _get_or_create_vector_store_id cfg b c = (.error e, c, ⟨n, 0, 0⟩) := by
  simp [_get_or_create_vector_store_id, h1, h2]

/-- Resolver step when pagination exhausts and the create succeeds. -/
theorem step_create_ok (cfg : Config) (b : Behavior) (c : Option String) (id : String) (n : Nat)
    (h1 : truthyCache c = false)
    (h2 : findLoop cfg.storeName b.pages = (.ok none, n))
    (h3 : b.createResp = .ok id) :
    _get_or_create_vector_store_id cfg b c = (.ok id, some id, ⟨n, 1, 1⟩) := by
  simp [_get_or_create_vector_store_id, h1, h2, h3]

/-- Resolver step when pagination exhausts and the create raises: one
create call is counted, the cache stays unset. -/
theorem step_create_err (cfg : Config) (b : Behavior) (c : Option String) (e : Err) (n : Nat)
    (h1 : truthyCache c = false)
    (h2 : findLoop cfg.storeName b.pages = (.ok none, n))
    (h3 : b.createResp = .error e) :
    _get_or_create_vector_store_id cfg b c = (.error e, c, ⟨n, 1, 0⟩) := by
  simp [_get_or_create_vector_store_id, h1, h2, h3]

/-- A successful resolution sets the cache to the returned (non-empty)
identifier. -/
theorem resolver_success_cache (cfg : Config) (b : Behavior) (c : Option String) (id : String)
    (hb : goodIdsB b = true) (hc : goodCache c = true)
    (h : (_get_or_create_vector_store_id cfg b c).1 = .ok id) :
    (_get_or_create_vector_store_id cfg b c).2.1 = some id ∧ id ≠ "" := by
  have hbs := goodIdsB_spec b hb
  by_cases htc : truthyCache c = true
  · rw [resolver_fastPath cfg b c htc] at h ⊢
    simp at h ⊢
    rcases c with _ | s
    · simp [truthyCache] at htc
    · simp [goodCache] at hc
      simp at h
      subst h
      simp [hc]
  · rw [Bool.not_eq_true] at htc
    rcases hf : findLoop cfg.storeName b.pages with ⟨fr, fn⟩
    rcases fr with e | fid
    · rw [step_find_err cfg b c e fn htc hf] at h
      simp at h
    · rcases fid with _ | fid
      · cases hcr : b.createResp with
        | error e =>
          rw [step_create_err cfg b c e fn htc hf hcr] at h
          simp at h
        | ok nid =>
          rw [step_create_ok cfg b c nid fn htc hf hcr] at h ⊢
          simp at h ⊢
          subst h
          exact ⟨rfl, hbs.2 nid hcr⟩
      · rw [step_found cfg b c fid fn htc hf] at h ⊢
        simp at h ⊢
        subst h
        exact ⟨rfl, findLoop_good cfg.storeName b.pages hbs.1 fid (by rw [hf])⟩

/-- The resolver never moves the cache out of the good states. -/
theorem resolver_goodCache_preserved (cfg : Config) (b : Behavior) (c : Option String)
    (hb : goodIdsB b = true) (hc : goodCache c = true) :
    goodCache (_get_or_create_vector_store_id cfg b c).2.1 = true := by
  have hbs := goodIdsB_spec b hb
  by_cases htc : truthyCache c = true
  · rw [resolver_fastPath cfg b c htc]
    exact hc
  · rw [Bool.not_eq_true] at htc
    rcases hf : findLoop cfg.storeName b.pages with ⟨fr, fn⟩
    rcases fr with e | fid
    · rw [step_find_err cfg b c e fn htc hf]
      exact hc
    · rcases fid with _ | fid
      · cases hcr : b.createResp with
        | error e =>
          rw [step_create_err cfg b c e fn htc hf hcr]
          exact hc
        | ok nid =>
          rw [step_create_ok cfg b c nid fn htc hf hcr]
          have : nid ≠ "" := hbs.2 nid hcr
          simpa [goodCache] using this
      · rw [step_found cfg b c fid fn htc hf]
        have : fid ≠ "" := findLoop_good cfg.storeName b.pages hbs.1 fid (by rw [hf])
        simpa [goodCache] using this

/-- From a truthy cache every further resolve in the sequence is the
lock-free fast path: same identifier, no remote calls, cache frozen. -/
theorem resolveSeq_cached (cfg : Config) (b : Behavior) (c : Option String) (k : Nat)
    (h : truthyCache c = true) :
    resolveSeq cfg b c k = (List.replicate k (.ok (c.getD "")), c, ⟨0, 0, 0⟩) := by
  induction k with
  | zero => simp [resolveSeq]
  | succ k ih =>
    rw [resolveSeq, resolver_fastPath cfg b c h]
    simp [ih, List.replicate_succ]

/-- Every successful resolve in a sequence returns the identifier the
cache ends with. -/
theorem resolveSeq_ok_final (cfg : Config) (b : Behavior) (hb : goodIdsB b = true) :
    ∀ (k : Nat) (c : Option String), goodCache c = true →
    ∀ (i : Nat) (id : String), (resolveSeq cfg b c k).1[i]? = some (.ok id) →
      (resolveSeq cfg b c k).2.1 = some id ∧ id ≠ "" := by
  intro k
  induction k with
  | zero => intro c _ i id h; simp [resolveSeq] at h
  | succ k ih =>
    intro c hc i id h
    by_cases htc : truthyCache c = true
    · rw [resolveSeq_cached cfg b c (k + 1) htc] at h ⊢
      have hmem : (Except.ok id : Except Err String) ∈ List.replicate (k + 1) (Except.ok (c.getD "")) :=
        List.getElem?_mem h
      have heq := List.eq_of_mem_replicate hmem
      simp at heq
      rcases c with _ | s
      · simp [truthyCache] at htc
      · simp [truthyCache] at htc
        simp at heq
        subst heq
        simp [htc]
    · rw [Bool.not_eq_true] at htc
      rcases hf : findLoop cfg.storeName b.pages with ⟨fr, fn⟩
      rcases fr with e | fid
      · rw [resolveSeq, step_find_err cfg b c e fn htc hf] at h ⊢
        simp at h ⊢
        match i with
        | 0 => simp at h
        | i + 1 =>
          simp at h
          exact ih c hc i id h
      · rcases fid with _ | fid
        · cases hcr : b.createResp with
          | error e =>
            rw [resolveSeq, step_create_err cfg b c e fn htc hf hcr] at h ⊢
            simp at h ⊢
            match i with
            | 0 => simp at h
            | i + 1 =>
              simp at h
              exact ih c hc i id h
          | ok nid =>
            have hnid : nid ≠ "" := (goodIdsB_spec b hb).2 nid hcr
            have htr : truthyCache (some nid) = true := by simp [truthyCache, hnid]
            rw [resolveSeq, step_create_ok cfg b c nid fn htc hf hcr] at h ⊢
            rw [resolveSeq_cached cfg b (some nid) k htr] at h ⊢
            simp only [] at h ⊢
            have hmem : (Except.ok id : Except Err String) ∈
                Except.ok nid :: List.replicate k (Except.ok nid) := List.getElem?_mem h
            have hmem2 : (Except.ok id : Except Err String) ∈
                List.replicate (k + 1) (Except.ok nid) := by
              rw [List.replicate_succ]; exact hmem
            have heq := List.eq_of_mem_replicate hmem2
            simp at heq
            subst heq
            exact ⟨rfl, hnid⟩
        · have hfid : fid ≠ "" := findLoop_good cfg.storeName b.pages (goodIdsB_spec b hb).1 fid (by rw [hf])
          have htr : truthyCache (some fid) = true := by simp [truthyCache, hfid]
          rw [resolveSeq, step_found cfg b c fid fn htc hf] at h ⊢
          rw [resolveSeq_cached cfg b (some fid) k htr] at h ⊢
          simp only [] at h ⊢
          have hmem : (Except.ok id : Except Err String) ∈
              Except.ok fid :: List.replicate k (Except.ok fid) := List.getElem?_mem h
          have hmem2 : (Except.ok id : Except Err String) ∈
              List.replicate (k + 1) (Except.ok fid) := by
            rw [List.replicate_succ]; exact hmem
          have heq := List.eq_of_mem_replicate hmem2
          simp at heq
          subst heq
          exact ⟨rfl, hfid⟩

/-- At most one successful create occurs in any resolve sequence. -/
theorem resolveSeq_createOks (cfg : Config) (b : Behavior) (hb : goodIdsB b = true) :
    ∀ (k : Nat) (c : Option String), goodCache c = true →
    (resolveSeq cfg b c k).2.2.createOks ≤ 1 := by
  intro k
  induction k with
  | zero => intro c _; simp [resolveSeq]
  | succ k ih =>
    intro c hc
    by_cases htc : truthyCache c = true
    · rw [resolveSeq_cached cfg b c (k + 1) htc]
      simp
    · rw [Bool.not_eq_true] at htc
      rcases hf : findLoop cfg.storeName b.pages with ⟨fr, fn⟩
      rcases fr with e | fid
      · rw [resolveSeq, step_find_err cfg b c e fn htc hf]
        simpa using ih c hc
      · rcases fid with _ | fid
        · cases hcr : b.createResp with
          | error e =>
            rw [resolveSeq, step_create_err cfg b c e fn htc hf hcr]
            simpa using ih c hc
          | ok nid =>
            have hnid : nid ≠ "" := (goodIdsB_spec b hb).2 nid hcr
            have htr : truthyCache (some nid) = true := by simp [truthyCache, hnid]
            rw [resolveSeq, step_create_ok cfg b c nid fn htc hf hcr]
            rw [resolveSeq_cached cfg b (some nid) k htr]
            simp
        · have hfid : fid ≠ "" := findLoop_good cfg.storeName b.pages (goodIdsB_spec b hb).1 fid (by rw [hf])
          have htr : truthyCache (some fid) = true := by simp [truthyCache, hfid]
          rw [resolveSeq, step_found cfg b c fid fn htc hf]
          rw [resolveSeq_cached cfg b (some fid) k htr]
          simp

/-! ## Listing-loop lemmas -/

/-- When every per-item retrieve succeeds the loop returns items. -/
theorem listLoop_ok (b : Behavior) (u : Option String) (l : List FileRef)
    (h : ∀ f ∈ l, isOkE (b.retrieveResp f.id) = true) :
    ∃ items, (listLoop b u l).1 = .ok items := by
  induction l with
  | nil => exact ⟨[], rfl⟩
  | cons f rest ih =>
    have hf := h f (List.mem_cons_self _ _)
    cases hrt : b.retrieveResp f.id with
    | error e => rw [hrt] at hf; simp [isOkE] at hf
    | ok detail =>
      obtain ⟨items, hitems⟩ := ih (fun x hx => h x (List.mem_cons_of_mem _ hx))
      rw [listLoop, hrt]
      simp only [hitems]
      by_cases hk : keepFile u (detail.attributes.getD []) = true
      · exact ⟨listItem detail (detail.attributes.getD []) :: items, by simp [hk]⟩
      · rw [Bool.not_eq_true] at hk
        exact ⟨items, by simp [hk]⟩

/-- When no retrieved document's attributes carry the requested
user id, the post-filter keeps nothing. -/
theorem listLoop_nomatch (b : Behavior) (uid : String) (huid : uid ≠ "") (l : List FileRef)
    (h : ∀ f ∈ l, ∀ detail, b.retrieveResp f.id = .ok detail →
      dictGet (detail.attributes.getD []) "user_id" ≠ some (.s uid))
    (hok : ∀ f ∈ l, isOkE (b.retrieveResp f.id) = true) :
    (listLoop b (some uid) l).1 = .ok [] := by
  induction l with
  | nil => rfl
  | cons f rest ih =>
    have hf := hok f (List.mem_cons_self _ _)
    cases hrt : b.retrieveResp f.id with
    | error e => rw [hrt] at hf; simp [isOkE] at hf
    | ok detail =>
      have hne := h f (List.mem_cons_self _ _) detail hrt
      have hkeep : keepFile (some uid) (detail.attributes.getD []) = false := by
        rw [keepFile]
        have htr : truthyStr (some uid) = true := by simp [truthyStr, huid]
        rw [htr]
        simp only [if_true]
        rcases hg : dictGet (detail.attributes.getD []) "user_id" with _ | v
        · rfl
        · cases v with
          | s w =>
            rw [hg] at hne
            have : w ≠ uid := fun hw => hne (by rw [hw])
            simpa using this
          | b x => rfl
          | n x => rfl
          | null => rfl
          | arr x => rfl
          | obj x => rfl
      have htail := ih
        (fun x hx detail hd => h x (List.mem_cons_of_mem _ hx) detail hd)
        (fun x hx => hok x (List.mem_cons_of_mem _ hx))
      rw [listLoop, hrt]
      simp only [htail, hkeep]
      simp

/-! ## Claim theorems -/

/-- C1 (counterexample): not every operation converts remote failures
into a tagged error result.  Under a behaviour whose file-listing call
raises, `list_memories` propagates the exception past its tool
boundary instead of returning a mapping with an error status. -/
theorem C1_list_propagates_counterexample :
    (list_memories cfgDef envDef b1 (some "vs_1") none 20 (some "completed")).1
      = Except.error "boom" := rfl

/-- C1 (amended): the guarded phases do convert failures to tagged
results.  Provided the resolver succeeds, `save_memory` always returns
a mapping (validation errors and both two-phase-write failures are
tagged), `delete_memory` always returns a mapping, `get_memory_content`
returns a mapping once the metadata retrieve succeeds, and
`search_memory` returns a mapping when the primary search attempt
returns.  (Resolver failures, listing and per-item retrieve failures in
`list_memories`, metadata-retrieve failures in `get_memory_content`, and
non-TypeError search failures propagate as exceptions, as the
counterexample shows.) -/
theorem C1_amended_error_conversion (cfg : Config) (env : Env) (b : Behavior)
    (cache : Option String) (memory uid : String) (sid : Option String) (mt : String)
    (tags : Option (List String)) (rflag : Option Bool) (fid query uid2 : String)
    (sid2 mt2 : Option String) (tags2 : Option (List String)) (mr : Int) (rw rf : Bool)
    (hres : isOkE (_get_or_create_vector_store_id cfg b cache).1 = true) :
    isOkE (save_memory cfg env b cache memory uid sid mt tags rflag).1 = true ∧
    isOkE (delete_memory cfg env b cache fid).1 = true ∧
    (isOkE (b.retrieveResp fid) = true →
      isOkE (get_memory_content cfg env b cache fid).1 = true) ∧
    (∀ r, b.searchPrimary = .ok r →
      isOkE (search_memory cfg env b cache query uid2 sid2 mt2 tags2 mr rw rf).1 = true) := by
  rcases hr : _get_or_create_vector_store_id cfg b cache with ⟨r1, c1, n1⟩
  rw [hr] at hres
  cases r1 with
  | error e => simp [isOkE] at hres
  | ok vsid =>
    refine ⟨?_, ?_, ?_, ?_⟩
    · by_cases h1 : isBlank memory = true
      · simp [save_memory, h1, isOkE]
      · by_cases h2 : (memory.length : Int) > cfg.maxChars
        · simp [save_memory, h1, h2, isOkE]
        · cases hu : b.uploadResp with
          | error e => simp [save_memory, h1, h2, hr, hu, isOkE]
          | ok f =>
            cases hup : b.updateResp with
            | error e => simp [save_memory, h1, h2, hr, hu, hup, isOkE]
            | ok u => simp [save_memory, h1, h2, hr, hu, hup, isOkE]
    · cases hd : b.deleteResp with
      | error e => simp [delete_memory, hr, hd, isOkE]
      | ok d => simp [delete_memory, hr, hd, isOkE]
    · intro hret
      cases hrt : b.retrieveResp fid with
      | error e => rw [hrt] at hret; simp [isOkE] at hret
      | ok detail =>
        cases hco : b.contentResp with
        | ok chunks => simp [get_memory_content, hr, hrt, hco, isOkE]
        | attrError => simp [get_memory_content, hr, hrt, hco, isOkE]
        | err e => simp [get_memory_content, hr, hrt, hco, isOkE]
    · intro r hp
      by_cases hq : isBlank query = true
      · simp [search_memory, hq, isOkE]
      · simp [search_memory, hq, hr, hp, isOkE]

/-- C1 (witness): the converting paths at a concrete behaviour. -/
theorem C1_amended_error_conversion_witness :
    isOkE (save_memory cfgDef envDef bBase (some "vs_1") "hello" "u1" none "note" none none).1 = true ∧
    isOkE (delete_memory cfgDef envDef bBase (some "vs_1") "file_1").1 = true ∧
    isOkE (get_memory_content cfgDef envDef bBase (some "vs_1") "file_1").1 = true ∧
    isOkE (search_memory cfgDef envDef bBase (some "vs_1") "q" "u1" none none none 8 true false).1 = true := by
  have h := C1_amended_error_conversion cfgDef envDef bBase (some "vs_1") "hello" "u1" none "note"
    none none "file_1" "q" "u1" none none none 8 true false (by decide)
  exact ⟨h.1, h.2.1, h.2.2.1 (by decide), h.2.2.2 srDef rfl⟩

/-- C2: at the failing input (phase-1 upload succeeds with
`file_123`, phase-2 attribute update raises `update failed`), the
error result of `save_memory` is the bare two-key mapping carrying
only the error message: it does not carry the obtained document id, so
the partial success is not distinguishable, contrary to the claim. -/
theorem C2_phase2_error_lacks_file_id :
    (save_memory cfgDef envDef b2 (some "vs_1") "remember the deploy steps" "u1" none "note"
        none none).1
      = .ok [("status", JVal.s "error"), ("error", JVal.s "update failed")] ∧
    dictGet [("status", JVal.s "error"), ("error", JVal.s "update failed")] "file_id" = none ∧
    dictGet [("status", JVal.s "error"), ("error", JVal.s "update failed")] "status"
      = some (JVal.s "error") := by
  refine ⟨rfl, rfl, rfl⟩

/-- C3 (counterexample): the create-collection call is not limited to
one per process.  With an empty listing and a failing create, two
resolve calls issue two create calls (each failure leaves the cache
unset, so the next call retries). -/
theorem C3_two_create_calls_counterexample :
    (resolveSeq cfgDef b3 none 2).2.2.creates = 2 ∧
    ¬((resolveSeq cfgDef b3 none 2).2.2.creates ≤ 1) := by
  constructor
  · rfl
  · decide

/-- C3 (amended): provided the remote service hands out non-empty
identifiers, over every sequence of resolve calls at most one
create succeeds; a truthy cache is returned unchanged with zero
remote calls; a successful resolution caches exactly the returned
identifier; and all successful resolve calls in one process return the
same identifier. -/
theorem C3_amended_resolver_memoization (cfg : Config) (b : Behavior) (cache : Option String)
    (k : Nat) (hb : goodIdsB b = true) (hc : goodCache cache = true) :
    (resolveSeq cfg b cache k).2.2.createOks ≤ 1 ∧
    (∀ c, truthyCache c = true →
      _get_or_create_vector_store_id cfg b c = (.ok (c.getD ""), c, ⟨0, 0, 0⟩)) ∧
    (∀ c id, goodCache c = true → (_get_or_create_vector_store_id cfg b c).1 = .ok id →
      (_get_or_create_vector_store_id cfg b c).2.1 = some id ∧ id ≠ "") ∧
    (∀ (i j : Nat) (id id' : String), (resolveSeq cfg b cache k).1[i]? = some (.ok id) →
      (resolveSeq cfg b cache k).1[j]? = some (.ok id') → id = id') := by
  refine ⟨resolveSeq_createOks cfg b hb k cache hc,
    fun c h => resolver_fastPath cfg b c h,
    fun c id hc' h => resolver_success_cache cfg b c id hb hc' h,
    fun i j id id' h1 h2 => ?_⟩
  have a1 := (resolveSeq_ok_final cfg b hb k cache hc i id h1).1
  have a2 := (resolveSeq_ok_final cfg b hb k cache hc j id' h2).1
  rw [a1] at a2
  exact Option.some_inj.mp a2

/-- C3 (witness): the amended properties at concrete inputs. -/
theorem C3_amended_resolver_memoization_witness :
    (resolveSeq cfgDef bBase none 3).2.2.createOks ≤ 1 ∧
    _get_or_create_vector_store_id cfgDef bBase (some "vs_9")
      = (.ok "vs_9", some "vs_9", ⟨0, 0, 0⟩) ∧
    ((_get_or_create_vector_store_id cfgDef bBase none).2.1 = some "vs_1" ∧ "vs_1" ≠ "") := by
  have h := C3_amended_resolver_memoization cfgDef bBase none 3 (by decide) (by decide)
  exact ⟨h.1, h.2.1 (some "vs_9") (by decide), h.2.2.1 none "vs_1" (by decide) (by rfl)⟩

/-- C4: with a truthy `user_id` predicate, `list_memories` reports a
`count` equal to the number of post-filter items, while `has_more` and
the `last_id` cursor reflect the unfiltered remote page; and when no
retrieved document's attributes map `user_id` to the requested value,
the items list is empty regardless of the raw page size. -/
theorem C4_list_client_side_filtering (cfg : Config) (env : Env) (b : Behavior)
    (cache : Option String) (uid : String) (limit : Int) (sf : Option String) (page : FilePage)
    (hres : isOkE (_get_or_create_vector_store_id cfg b cache).1 = true)
    (hpage : b.filesListResp = .ok page)
    (hret : ∀ f ∈ page.data, isOkE (b.retrieveResp f.id) = true)
    (huid : uid ≠ "") :
    ∃ d items, (list_memories cfg env b cache (some uid) limit sf).1 = .ok d ∧
      dictGet d "items" = some (.arr items) ∧
      dictGet d "count" = some (.n (items.length : Int)) ∧
      dictGet d "has_more" = some (.b (page.has_more.getD false)) ∧
      dictGet d "last_id" = some (match page.last_id with | some s => .s s | none => .null) ∧
      ((∀ f ∈ page.data, ∀ detail, b.retrieveResp f.id = .ok detail →
          dictGet (detail.attributes.getD []) "user_id" ≠ some (.s uid)) →
        items = []) := by
  rcases hr : _get_or_create_vector_store_id cfg b cache with ⟨r1, c1, n1⟩
  rw [hr] at hres
  cases r1 with
  | error e => simp [isOkE] at hres
  | ok vsid =>
    obtain ⟨items, hitems⟩ := listLoop_ok b (some uid) page.data hret
    refine ⟨[("status", .s "ok"), ("vector_store_id", .s vsid),
      ("count", .n (items.length : Int)), ("items", .arr items),
      ("has_more", .b (page.has_more.getD false)),
      ("last_id", match page.last_id with | some s => .s s | none => .null)],
      items, ?_, ?_, ?_, ?_, ?_, ?_⟩
    · simp [list_memories, hr, hpage, hitems]
    · simp [dictGet]
    · simp [dictGet]
    · simp [dictGet]
    · simp [dictGet]
    · intro hnm
      have := listLoop_nomatch b uid huid page.data hnm hret
      rw [hitems] at this
      simpa using this

/-- C4 (witness): scenario C at a concrete behaviour — one stored
document tagged `u1`, listing for `u2`. -/
theorem C4_list_client_side_filtering_witness :
    ∃ d items, (list_memories cfgDef envDef b4 (some "vs_1") (some "u2") 20 (some "completed")).1 = .ok d ∧
      dictGet d "items" = some (.arr items) ∧
      dictGet d "count" = some (.n (items.length : Int)) ∧
      dictGet d "has_more" = some (.b (pageC4.has_more.getD false)) ∧
      dictGet d "last_id" = some (match pageC4.last_id with | some s => .s s | none => .null) ∧
      ((∀ f ∈ pageC4.data, ∀ detail, b4.retrieveResp f.id = .ok detail →
          dictGet (detail.attributes.getD []) "user_id" ≠ some (.s "u2")) →
        items = []) := by
  exact C4_list_client_side_filtering cfgDef envDef b4 (some "vs_1") "u2" 20 (some "completed")
    pageC4 (by decide) rfl (by decide) (by decide)

/-- C5: the attribute filter builder agrees, for every combination of
optional inputs, with the claim's description: one equality leaf per
non-empty input in the fixed order (user_id, session_id, type, tags),
null for zero leaves, the bare leaf for one, a conjunction otherwise,
and the leaf count equals the number of non-empty inputs. -/
theorem C5_filter_builder_spec (user_id session_id : Option String)
    (tags : Option (List String)) (memory_type : Option String) :
    _build_attribute_filter user_id session_id tags memory_type
      = filterSpec user_id session_id memory_type tags ∧
    (specLeaves user_id session_id memory_type tags).length =
      (if truthyStr user_id then 1 else 0) + (if truthyStr session_id then 1 else 0) +
        (if truthyStr memory_type then 1 else 0) + (if truthyList tags then 1 else 0) := by
  cases h1 : truthyStr user_id <;> cases h2 : truthyStr session_id <;>
    cases h3 : truthyStr memory_type <;> cases h4 : truthyList tags <;>
    simp [_build_attribute_filter, filterSpec, specLeaves, h1, h2, h3, h4]

/-- C8: validation fails fast with zero remote calls.  A save whose
memory is blank or over the ceiling, and a search whose query is
blank, return mappings with an error status, leave the cache alone,
and record no remote call at all. -/
theorem C8_validation_fail_fast (cfg : Config) (env : Env) (b : Behavior) (cache : Option String)
    (memory user_id : String) (session_id : Option String) (memory_type : String)
    (tags : Option (List String)) (rflag : Option Bool)
    (query uid2 : String) (sid2 mt2 : Option String) (tags2 : Option (List String))
    (mr : Int) (rw rf : Bool)
    (hm : isBlank memory = true ∨ (memory.length : Int) > cfg.maxChars)
    (hq : isBlank query = true) :
    (∃ d, (save_memory cfg env b cache memory user_id session_id memory_type tags rflag).1 = .ok d ∧
      dictGet d "status" = some (.s "error")) ∧
    logTotal (save_memory cfg env b cache memory user_id session_id memory_type tags rflag).2.2 = 0 ∧
    (save_memory cfg env b cache memory user_id session_id memory_type tags rflag).2.1 = cache ∧
    (∃ d, (search_memory cfg env b cache query uid2 sid2 mt2 tags2 mr rw rf).1 = .ok d ∧
      dictGet d "status" = some (.s "error")) ∧
    logTotal (search_memory cfg env b cache query uid2 sid2 mt2 tags2 mr rw rf).2.2 = 0 ∧
    (search_memory cfg env b cache query uid2 sid2 mt2 tags2 mr rw rf).2.1 = cache := by
  cases hb : isBlank memory with
  | true => simp [save_memory, search_memory, hb, hq, dictGet, logTotal, emptyLog]
  | false =>
    rcases hm with hm | hm
    · rw [hb] at hm; cases hm
    · simp [save_memory, search_memory, hb, hq, hm, dictGet, logTotal, emptyLog]

/-- C8 (witness): blank save and blank search make zero remote calls. -/
theorem C8_validation_fail_fast_witness :
    logTotal (save_memory cfgDef envDef bBase (some "vs_1") "   " "u1" none "note" none none).2.2 = 0 ∧
    logTotal (search_memory cfgDef envDef bBase (some "vs_1") " " "default" none none none 8 true false).2.2 = 0 := by
  have h := C8_validation_fail_fast cfgDef envDef bBase (some "vs_1") "   " "u1" none "note" none
    none " " "default" none none none 8 true false (Or.inl (by decide)) (by decide)
  exact ⟨h.2.1, h.2.2.2.2.1⟩

/-- C9: once validation and resolution succeed, the alternate filter
parameter name is attempted exactly when the primary attempt fails
with a TypeError, and any other primary failure propagates unchanged
(as the raised exception) with no retry. -/
theorem C9_typeerror_fallback_only (cfg : Config) (env : Env) (b : Behavior)
    (cache : Option String) (query user_id : String) (session_id memory_type : Option String)
    (tags : Option (List String)) (mr : Int) (rw rf : Bool)
    (hq : isBlank query = false)
    (hres : isOkE (_get_or_create_vector_store_id cfg b cache).1 = true) :
    ((search_memory cfg env b cache query user_id session_id memory_type tags mr rw rf).2.2.altSearches = 1
      ↔ b.searchPrimary = .typeError) ∧
    (∀ e, b.searchPrimary = .err e →
      (search_memory cfg env b cache query user_id session_id memory_type tags mr rw rf).1 = .error e) := by
  rcases hr : _get_or_create_vector_store_id cfg b cache with ⟨r1, c1, n1⟩
  rw [hr] at hres
  cases r1 with
  | error e => simp [isOkE] at hres
  | ok vsid =>
    cases hp : b.searchPrimary with
    | ok r => simp [search_memory, hq, hr, hp, emptyLog]
    | typeError =>
      cases ha : b.searchAlternate with
      | error e => simp [search_memory, hq, hr, hp, ha]
      | ok r => simp [search_memory, hq, hr, hp, ha]
    | err e => simp [search_memory, hq, hr, hp, emptyLog]

/-- C9 (witness): under a TypeError-raising primary attempt the
alternate parameter name is attempted. -/
theorem C9_typeerror_fallback_only_witness :
    (search_memory cfgDef envDef b9 (some "vs_1") "find" "default" none none none 8 true false).2.2.altSearches = 1 := by
  exact (C9_typeerror_fallback_only cfgDef envDef b9 (some "vs_1") "find" "default" none none none
    8 true false (by decide) (by decide)).1.mpr rfl

/-- C10: a search without an explicit user id hands the remote call
the single equality leaf for `user_id = "default"`; only an explicitly
empty user id yields a null (unconstrained) filter. -/
theorem C10_default_user_filter (cfg : Config) (env : Env) (b : Behavior)
    (cache : Option String) (query : String) (mr : Int) (rw rf : Bool)
    (hq : isBlank query = false)
    (hres : isOkE (_get_or_create_vector_store_id cfg b cache).1 = true) :
    (search_memory cfg env b cache query "default" none none none mr rw rf).2.2.filterSent
      = some (some (eqLeaf "user_id" "default")) ∧
    (search_memory cfg env b cache query "" none none none mr rw rf).2.2.filterSent
      = some none := by
  rcases hr : _get_or_create_vector_store_id cfg b cache with ⟨r1, c1, n1⟩
  rw [hr] at hres
  cases r1 with
  | error e => simp [isOkE] at hres
  | ok vsid =>
    cases hp : b.searchPrimary with
    | ok r =>
      constructor <;>
        simp [search_memory, hq, hr, hp, _build_attribute_filter, truthyStr, truthyList, eqLeaf]
    | typeError =>
      cases ha : b.searchAlternate with
      | error e =>
        constructor <;>
          simp [search_memory, hq, hr, hp, ha, _build_attribute_filter, truthyStr, truthyList, eqLeaf]
      | ok r =>
        constructor <;>
          simp [search_memory, hq, hr, hp, ha, _build_attribute_filter, truthyStr, truthyList, eqLeaf]
    | err e =>
      constructor <;>
        simp [search_memory, hq, hr, hp, _build_attribute_filter, truthyStr, truthyList, eqLeaf]

/-- C10 (witness): the default-user filter leaf at a concrete search. -/
theorem C10_default_user_filter_witness :
    (search_memory cfgDef envDef bBase (some "vs_1") "find" "default" none none none 8 true false).2.2.filterSent
      = some (some (eqLeaf "user_id" "default")) := by
  exact (C10_default_user_filter cfgDef envDef bBase (some "vs_1") "find" 8 true false
    (by decide) (by decide)).1
/-- C7 (counterexample): an input containing `Bearer abc123` can keep
it verbatim in the redactor's output.  In `xBearer abc123` the word
character before `Bearer` defeats the pattern's `\b`, no pattern
matches, and the output still contains the probe secret. -/
theorem C7_bearer_survives_counterexample :
    containsSub bearerTarget "xBearer abc123".data = true ∧
    containsSub bearerTarget (_redact_secrets "xBearer abc123").data = true := by
  exact ⟨by decide, by decide⟩

/-- A bracket-free prefix of a substitution pass's output (with no
pending skip) was already a prefix of its input: the replacement text
starts with `[`, so a fresh prefix cannot begin inside it. -/
theorem scanP_pref (tryM : Bool → List Char → Option Nat) :
    ∀ (l t1 : List Char), '[' ∉ t1 → ∀ (w : Bool),
      t1.isPrefixOf (scanP tryM w 0 l) = true → t1.isPrefixOf l = true := by
  intro l
  induction l with
  | nil =>
    intro t1 _ w h
    simpa [scanP] using h
  | cons c rest ih =>
    intro t1 hnb w h
    cases t1 with
    | nil => rfl
    | cons a t2 =>
      have ha : a ≠ '[' := fun he => hnb (he ▸ List.mem_cons_self a t2)
      have hnb2 : '[' ∉ t2 := fun hm => hnb (List.mem_cons_of_mem a hm)
      rcases htm : tryM w (c :: rest) with _ | n
      · have hscan : scanP tryM w 0 (c :: rest) = c :: scanP tryM (isWordChar c) 0 rest := by
          simp [scanP, htm]
        rw [hscan] at h
        simp only [List.isPrefixOf] at h ⊢
        rw [Bool.and_eq_true] at h ⊢
        exact ⟨h.1, ih t2 hnb2 (isWordChar c) h.2⟩
      · cases n with
        | zero =>
          have hscan : scanP tryM w 0 (c :: rest) = c :: scanP tryM (isWordChar c) 0 rest := by
            simp [scanP, htm]
          rw [hscan] at h
          simp only [List.isPrefixOf] at h ⊢
          rw [Bool.and_eq_true] at h ⊢
          exact ⟨h.1, ih t2 hnb2 (isWordChar c) h.2⟩
        | succ m =>
          have hscan : scanP tryM w 0 (c :: rest)
              = redactedChars ++ scanP tryM (isWordChar c) m rest := by
            simp [scanP, htm]
          rw [hscan] at h
          simp [redactedChars, List.isPrefixOf, ha] at h

/-- The probe secret cannot overlap an inserted `[REDACTED]` block:
occurrences in `[REDACTED] ++ X` are exactly occurrences in `X`. -/
theorem containsSub_red (X : List Char) :
    containsSub bearerTarget (redactedChars ++ X) = containsSub bearerTarget X := by
  simp [redactedChars, containsSub, bearerTarget, List.isPrefixOf]

/-- Any substitution pass preserves absence of the probe secret:
kept characters are contiguous chunks of the input and replacements
cannot recombine into it across a bracket. -/
theorem scanP_noSub (tryM : Bool → List Char → Option Nat) :
    ∀ (l : List Char) (w : Bool) (k : Nat),
      containsSub bearerTarget l = false →
      containsSub bearerTarget (scanP tryM w k l) = false := by
  intro l
  induction l with
  | nil => intro w k _; simp [scanP]; decide
  | cons c rest ih =>
    intro w k hcs
    rw [containsSub, Bool.or_eq_false_iff] at hcs
    cases k with
    | succ k2 =>
      have hscan : scanP tryM w (k2 + 1) (c :: rest) = scanP tryM (isWordChar c) k2 rest := by
        simp [scanP]
      rw [hscan]
      exact ih (isWordChar c) k2 hcs.2
    | zero =>
      rcases htm : tryM w (c :: rest) with _ | n
      · have hscan : scanP tryM w 0 (c :: rest) = c :: scanP tryM (isWordChar c) 0 rest := by
          simp [scanP, htm]
        rw [hscan, containsSub, Bool.or_eq_false_iff]
        refine ⟨?_, ih (isWordChar c) 0 hcs.2⟩
        cases hpf : bearerTarget.isPrefixOf (c :: scanP tryM (isWordChar c) 0 rest) with
        | false => rfl
        | true =>
          have := scanP_pref tryM (c :: rest) bearerTarget (by decide) w (by rw [hscan]; exact hpf)
          rw [this] at hcs
          exact absurd hcs.1 (by simp)
      · cases n with
        | zero =>
          have hscan : scanP tryM w 0 (c :: rest) = c :: scanP tryM (isWordChar c) 0 rest := by
            simp [scanP, htm]
          rw [hscan, containsSub, Bool.or_eq_false_iff]
          refine ⟨?_, ih (isWordChar c) 0 hcs.2⟩
          cases hpf : bearerTarget.isPrefixOf (c :: scanP tryM (isWordChar c) 0 rest) with
          | false => rfl
          | true =>
            have := scanP_pref tryM (c :: rest) bearerTarget (by decide) w (by rw [hscan]; exact hpf)
            rw [this] at hcs
            exact absurd hcs.1 (by simp)
        | succ m =>
          have hscan : scanP tryM w 0 (c :: rest)
              = redactedChars ++ scanP tryM (isWordChar c) m rest := by
            simp [scanP, htm]
          rw [hscan, containsSub_red]
          exact ih (isWordChar c) m hcs.2

/-- The boundary invariant descends to the tail. -/
theorem goodOccsB_descend (w : Bool) (c : Char) (rest : List Char)
    (h : goodOccsB w (c :: rest) = true) : goodOccsB (isWordChar c) rest = true := by
  rw [goodOccsB, Bool.and_eq_true] at h
  exact h.2

/-- An occurrence at the current position forces a non-word
predecessor. -/
theorem goodOccsB_at0 (w : Bool) (l : List Char)
    (h : goodOccsB w l = true) (hp : bearerTarget.isPrefixOf l = true) : w = false := by
  cases l with
  | nil => simp [bearerTarget, List.isPrefixOf] at hp
  | cons c rest =>
    rw [goodOccsB, Bool.and_eq_true] at h
    rcases h with ⟨h1, _⟩
    rw [hp] at h1
    simpa using h1

/-- Rebuilding the invariant for an arbitrary predecessor wordness
when any occurrence at the head is known to have a non-word
predecessor. -/
theorem goodOccsB_build (c : Char) (T : List Char)
    (h : goodOccsB false T = true)
    (hc : bearerTarget.isPrefixOf T = true → isWordChar c = false) :
    goodOccsB (isWordChar c) T = true := by
  cases T with
  | nil => rfl
  | cons d T2 =>
    rw [goodOccsB, Bool.and_eq_true] at h ⊢
    refine ⟨?_, h.2⟩
    cases hpf : bearerTarget.isPrefixOf (d :: T2) with
    | false => simp
    | true => simp [hc hpf]

/-- Consing a kept character preserves the boundary invariant. -/
theorem goodOccsB_cons (c : Char) (T : List Char)
    (h : goodOccsB false T = true)
    (hc : bearerTarget.isPrefixOf T = true → isWordChar c = false) :
    goodOccsB false (c :: T) = true := by
  rw [goodOccsB, Bool.and_eq_true]
  exact ⟨by simp, goodOccsB_build c T h hc⟩

/-- Prepending the `[REDACTED]` block preserves the boundary
invariant (it ends in a non-word bracket). -/
theorem goodOccsB_red (T : List Char) (h : goodOccsB false T = true) :
    goodOccsB false (redactedChars ++ T) = true := by
  simp only [redactedChars]
  simp only [List.cons_append, List.nil_append]
  repeat
    rw [goodOccsB, Bool.and_eq_true]
    refine ⟨by simp [bearerTarget, List.isPrefixOf], ?_⟩
    simp only [isWordChar]
    norm_num
  exact h

/-- Every substitution pass preserves the boundary invariant: kept
chunks keep their predecessors and replacement blocks end in `]`. -/
theorem scanP_goodOccs (tryM : Bool → List Char → Option Nat) :
    ∀ (l : List Char) (w : Bool) (k : Nat),
      goodOccsB w l = true → goodOccsB false (scanP tryM w k l) = true := by
  intro l
  induction l with
  | nil => intro w k _; simp [scanP, goodOccsB]
  | cons c rest ih =>
    intro w k hg
    have hgd := goodOccsB_descend w c rest hg
    cases k with
    | succ k2 =>
      have hscan : scanP tryM w (k2 + 1) (c :: rest) = scanP tryM (isWordChar c) k2 rest := by
        simp [scanP]
      rw [hscan]
      exact ih (isWordChar c) k2 hgd
    | zero =>
      rcases htm : tryM w (c :: rest) with _ | n
      · have hscan : scanP tryM w 0 (c :: rest) = c :: scanP tryM (isWordChar c) 0 rest := by
          simp [scanP, htm]
        rw [hscan]
        refine goodOccsB_cons c _ (ih (isWordChar c) 0 hgd) ?_
        intro hpf
        have hpr := scanP_pref tryM rest bearerTarget (by decide) (isWordChar c) hpf
        exact goodOccsB_at0 (isWordChar c) rest hgd hpr
      · cases n with
        | zero =>
          have hscan : scanP tryM w 0 (c :: rest) = c :: scanP tryM (isWordChar c) 0 rest := by
            simp [scanP, htm]
          rw [hscan]
          refine goodOccsB_cons c _ (ih (isWordChar c) 0 hgd) ?_
          intro hpf
          have hpr := scanP_pref tryM rest bearerTarget (by decide) (isWordChar c) hpf
          exact goodOccsB_at0 (isWordChar c) rest hgd hpr
        | succ m =>
          have hscan : scanP tryM w 0 (c :: rest)
              = redactedChars ++ scanP tryM (isWordChar c) m rest := by
            simp [scanP, htm]
          rw [hscan]
          exact goodOccsB_red _ (ih (isWordChar c) m hgd)

/-- Word characters all belong to the bearer value class, so the
character after a maximal class run is never a word character. -/
theorem word_sub_class (c : Char) (h : isWordChar c = true) : isB64Class c = true := by
  simp only [isWordChar, Bool.or_eq_true, Bool.and_eq_true] at h
  simp only [isB64Class, Bool.or_eq_true, Bool.and_eq_true]
  tauto

/-- The character just past a maximal run fails the run predicate. -/
theorem runLen_after (p : Char → Bool) :
    ∀ (l : List Char) (c : Char), l[runLen p l]? = some c → p c = false := by
  intro l
  induction l with
  | nil => intro c h; simp at h
  | cons d l2 ih =>
    intro c h
    by_cases hd : p d = true
    · rw [runLen, if_pos hd] at h
      simp at h
      exact ih c h
    · rw [runLen, if_neg hd] at h
      simp at h
      subst h
      simpa using hd

/-- Between a word character and a later non-word position there is a
word boundary. -/
theorem boundary_exists (s : List Char) :
    ∀ (n base : Nat), 1 ≤ base → charWordAt s (base - 1) = true →
      charWordAt s (base + n) = false →
      ∃ p, base ≤ p ∧ p ≤ base + n ∧ bAt s p = true := by
  intro n
  induction n with
  | zero =>
    intro base h1 h2 h3
    refine ⟨base, le_refl _, by omega, ?_⟩
    rw [bAt, h2]
    simpa using h3
  | succ n ih =>
    intro base h1 h2 h3
    cases hw : charWordAt s base with
    | false =>
      refine ⟨base, le_refl _, by omega, ?_⟩
      rw [bAt, h2, hw]
      rfl
    | true =>
      have h2b : charWordAt s (base + 1 - 1) = true := by simpa using hw
      have h3b : charWordAt s (base + 1 + n) = false := by
        have : base + 1 + n = base + (n + 1) := by omega
        rw [this]; exact h3
      obtain ⟨p, hp1, hp2, hp3⟩ := ih (base + 1) (by omega) h2b h3b
      exact ⟨p, by omega, by omega, hp3⟩

/-- The `=*\b` backtracking succeeds whenever some tried end
position carries a boundary. -/
theorem eqTrial_ex (s : List Char) (base : Nat) :
    ∀ (eqs j : Nat), j ≤ eqs → bAt s (base + j) = true →
      ∃ v, eqTrial s base eqs = some v ∧ base ≤ v := by
  intro eqs
  induction eqs with
  | zero =>
    intro j hj hb
    have : j = 0 := by omega
    subst this
    simp at hb
    rw [eqTrial]
    simp [hb]
  | succ e ih =>
    intro j hj hb
    cases hbe : bAt s (base + e + 1) with
    | true =>
      rw [eqTrial]
      simp [hbe]
      omega
    | false =>
      have hj2 : j ≤ e := by
        rcases Nat.lt_or_ge j (e + 1) with h | h
        · omega
        · have : j = e + 1 := by omega
          subst this
          rw [show base + (e + 1) = base + e + 1 by omega] at hb
          rw [hb] at hbe
          cases hbe
      obtain ⟨v, hv1, hv2⟩ := ih j hj2 hb
      rw [eqTrial]
      simp [hbe, hv1, hv2]

/-- The class-run backtracking succeeds whenever some tried end
position carries a boundary. -/
theorem classTrial_ex (s : List Char) (pre : Nat) :
    ∀ (k r : Nat), 1 ≤ r → r ≤ k → bAt s (pre + r) = true →
      ∃ v, classTrial s pre k = some v ∧ pre + 1 ≤ v := by
  intro k
  induction k with
  | zero => intro r h1 h2 _; omega
  | succ k2 ih =>
    intro r h1 h2 hb
    cases hbe : bAt s (pre + k2 + 1) with
    | true =>
      rw [classTrial]
      simp [hbe]
    | false =>
      have hr2 : r ≤ k2 := by
        rcases Nat.lt_or_ge r (k2 + 1) with h | h
        · omega
        · have : r = k2 + 1 := by omega
          subst this
          rw [show pre + (k2 + 1) = pre + k2 + 1 by omega] at hb
          rw [hb] at hbe
          cases hbe
      obtain ⟨v, hv1, hv2⟩ := ih r h1 hr2 hb
      rw [classTrial]
      simp [hbe, hv1, hv2]

/-- Any end position accepted by the `=*\b` backtracking lies at or
after its base. -/
theorem eqTrial_ge (s : List Char) (base : Nat) :
    ∀ (eqs v : Nat), eqTrial s base eqs = some v → base ≤ v := by
  intro eqs
  induction eqs with
  | zero =>
    intro v h
    rw [eqTrial] at h
    by_cases hb : bAt s base = true
    · rw [if_pos hb] at h; cases h; exact le_refl _
    · rw [if_neg hb] at h; cases h
  | succ e ih =>
    intro v h
    rw [eqTrial] at h
    by_cases hb : bAt s (base + e + 1) = true
    · rw [if_pos hb] at h; cases h; omega
    · rw [if_neg hb] at h; exact ih v h

/-- At a word boundary the bearer pattern always matches a text
starting with `Bearer abc123`, whatever follows: the value run begins
with word characters, so backtracking always finds a boundary. -/
theorem tryBearer_matches (suf : List Char) :
    ∃ m, tryBearer false (bearerTarget ++ suf) = some (m + 1) := by
  have hw : runLen isPySpace ((bearerTarget ++ suf).drop 6) = 1 := rfl
  have hcl : runLen isB64Class ((bearerTarget ++ suf).drop (6 + 1))
      = runLen isB64Class suf + 6 := rfl
  have h12 : charWordAt (bearerTarget ++ suf) 12 = true := rfl
  have hlen : bearerTarget.length = 13 := rfl
  have hafter : charWordAt (bearerTarget ++ suf) (13 + runLen isB64Class suf) = false := by
    rw [charWordAt, List.get?_eq_getElem?]
    rw [List.getElem?_append_right (by omega)]
    rw [hlen]
    rw [show 13 + runLen isB64Class suf - 13 = runLen isB64Class suf from by omega]
    rcases hg : suf[runLen isB64Class suf]? with _ | c
    · rfl
    · have hcls : isB64Class c = false := runLen_after isB64Class suf c hg
      cases hwc : isWordChar c with
      | false => simp [hwc]
      | true => rw [word_sub_class c hwc] at hcls; cases hcls
  obtain ⟨p, hp1, hp2, hp3⟩ :=
    boundary_exists (bearerTarget ++ suf) (runLen isB64Class suf) 13 (by omega)
      (by simpa using h12) hafter
  have hbt : ∃ v, bearerTail (bearerTarget ++ suf) 6 = some v ∧ 1 ≤ v := by
    simp only [bearerTail, hw, hcl]
    norm_num
    rcases heq : eqTrial (bearerTarget ++ suf) (6 + 1 + (runLen isB64Class suf + 6))
        (runLen (fun c => c = '=')
          ((bearerTarget ++ suf).drop (6 + 1 + (runLen isB64Class suf + 6)))) with _ | e
    · by_cases hp : p = 13 + runLen isB64Class suf
      · exfalso
        have hb0 : bAt (bearerTarget ++ suf) (6 + 1 + (runLen isB64Class suf + 6) + 0) = true := by
          rw [show 6 + 1 + (runLen isB64Class suf + 6) + 0 = 13 + runLen isB64Class suf from by omega]
          rw [← hp]
          exact hp3
        obtain ⟨v, hv, _⟩ := eqTrial_ex (bearerTarget ++ suf)
          (6 + 1 + (runLen isB64Class suf + 6)) _ 0 (Nat.zero_le _) hb0
        rw [heq] at hv
        cases hv
      · have hple : p < 13 + runLen isB64Class suf := by omega
        have hb1 : bAt (bearerTarget ++ suf) (6 + 1 + (p - 7)) = true := by
          rw [show 6 + 1 + (p - 7) = p from by omega]
          exact hp3
        obtain ⟨v, hv, hv1⟩ := classTrial_ex (bearerTarget ++ suf) (6 + 1)
          (runLen isB64Class suf + 6 - 1) (p - 7) (by omega) (by omega) hb1
        exact ⟨v, hv, by omega⟩
    · refine ⟨e, rfl, ?_⟩
      have := eqTrial_ge (bearerTarget ++ suf) (6 + 1 + (runLen isB64Class suf + 6)) _ e heq
      omega
  obtain ⟨v, hv, hv1⟩ := hbt
  have htb : tryBearer false (bearerTarget ++ suf) = bearerTail (bearerTarget ++ suf) 6 := by
    have hstrip : stripCI "bearer".data (bearerTarget ++ suf)
        = some (' ' :: 'a' :: 'b' :: 'c' :: '1' :: '2' :: '3' :: suf) := rfl
    simp [tryBearer, hstrip]
  refine ⟨v - 1, ?_⟩
  rw [htb, hv]
  congr 1
  omega

/-- The bearer substitution pass eliminates the probe secret from
any text whose occurrences all sit at word boundaries. -/
theorem scanP_bearer_kills :
    ∀ (l : List Char) (w : Bool) (k : Nat), goodOccsB w l = true →
      containsSub bearerTarget (scanP tryBearer w k l) = false := by
  intro l
  induction l with
  | nil => intro w k _; simp [scanP]; decide
  | cons c rest ih =>
    intro w k hg
    have hgd := goodOccsB_descend w c rest hg
    cases k with
    | succ k2 =>
      have hscan : scanP tryBearer w (k2 + 1) (c :: rest)
          = scanP tryBearer (isWordChar c) k2 rest := by simp [scanP]
      rw [hscan]
      exact ih _ k2 hgd
    | zero =>
      rcases htm : tryBearer w (c :: rest) with _ | n
      · have hscan : scanP tryBearer w 0 (c :: rest)
            = c :: scanP tryBearer (isWordChar c) 0 rest := by simp [scanP, htm]
        rw [hscan, containsSub, Bool.or_eq_false_iff]
        refine ⟨?_, ih _ 0 hgd⟩
        cases hpf : bearerTarget.isPrefixOf (c :: scanP tryBearer (isWordChar c) 0 rest) with
        | false => rfl
        | true =>
          exfalso
          have hpin : bearerTarget.isPrefixOf (c :: rest) = true :=
            scanP_pref tryBearer (c :: rest) bearerTarget (by decide) w
              (by rw [hscan]; exact hpf)
          have hw0 : w = false := goodOccsB_at0 w (c :: rest) hg hpin
          obtain ⟨suf, hsuf⟩ := List.isPrefixOf_iff_prefix.mp hpin
          obtain ⟨m, hm⟩ := tryBearer_matches suf
          rw [hsuf, ← hw0] at hm
          rw [htm] at hm
          cases hm
      · cases n with
        | zero =>
          have hscan : scanP tryBearer w 0 (c :: rest)
              = c :: scanP tryBearer (isWordChar c) 0 rest := by simp [scanP, htm]
          rw [hscan, containsSub, Bool.or_eq_false_iff]
          refine ⟨?_, ih _ 0 hgd⟩
          cases hpf : bearerTarget.isPrefixOf (c :: scanP tryBearer (isWordChar c) 0 rest) with
          | false => rfl
          | true =>
            exfalso
            have hpin : bearerTarget.isPrefixOf (c :: rest) = true :=
              scanP_pref tryBearer (c :: rest) bearerTarget (by decide) w
                (by rw [hscan]; exact hpf)
            have hw0 : w = false := goodOccsB_at0 w (c :: rest) hg hpin
            obtain ⟨suf, hsuf⟩ := List.isPrefixOf_iff_prefix.mp hpin
            obtain ⟨m, hm⟩ := tryBearer_matches suf
            rw [hsuf, ← hw0] at hm
            rw [htm] at hm
            cases hm
        | succ m =>
          have hscan : scanP tryBearer w 0 (c :: rest)
              = redactedChars ++ scanP tryBearer (isWordChar c) m rest := by
            simp [scanP, htm]
          rw [hscan, containsSub_red]
          exact ih _ m hgd

/-- C7 (amended): for every input in which every occurrence of
`Bearer abc123` is preceded by a non-word character or the start of
the string (the boundary the pattern's `\b` requires), the substring
never appears verbatim in the redactor's output; later patterns run
against already-redacted text and their replacements cannot
reintroduce it. -/
theorem C7_amended_boundary_redaction (x : String) (hg : goodOccsB false x.data = true) :
    containsSub bearerTarget (_redact_secrets x).data = false := by
  show containsSub bearerTarget (redactL x.data) = false
  rw [redactL]
  simp only [subPattern]
  have h1 := scanP_goodOccs tryAuthorization x.data false 0 hg
  have h2 := scanP_bearer_kills (scanP tryAuthorization false 0 x.data) false 0 h1
  have h3 := scanP_noSub tryAkia _ false 0 h2
  have h4 := scanP_noSub tryApiKey _ false 0 h3
  exact scanP_noSub tryToken _ false 0 h4

/-- C7 (witness): a concrete boundary-preceded secret is removed. -/
theorem C7_amended_boundary_redaction_witness :
    containsSub bearerTarget (_redact_secrets "see Bearer abc123 ok").data = false :=
  C7_amended_boundary_redaction "see Bearer abc123 ok" (by decide)


/-! ## C6: idempotence of the redaction pipeline.

The development below proves `redact(redact x) = redact x`.  For each
pattern a rejection-transfer lemma (`TR_*`) shows that a failed match
attempt stays failed when a later match of any pattern is replaced by
`[REDACTED]` (the junction always starts with `[`, which no pattern can
use), and per-pattern head/boundary lemmas show a replacement block can
never seed a new match.  Two generic inductions over the scanner
(`SAMEG`, `PRESG`) then show the final output admits no match of any of
the five patterns, so a second pass is the identity. -/

theorem noMatch_scan_id (tryM : Bool → List Char → Option Nat) :
    ∀ (s : List Char) (w : Bool), noMatchB tryM w s → scanP tryM w 0 s = s := by
  intro s
  induction s with
  | nil => intro w _; rfl
  | cons c rest ih =>
    intro w h
    obtain ⟨h1, h2⟩ := h
    rcases h1 with h1 | h1 <;> simp [scanP, h1, ih (isWordChar c) h2]

theorem noMatchB_red (tryX : Bool → List Char → Option Nat)
    (hBH : ∀ i, i ≤ 9 → ∀ (w : Bool) (tail : List Char),
      tryX w (redactedChars.drop i ++ tail) = none)
    (Z : List Char) (hZ : noMatchB tryX false Z) :
    ∀ w, noMatchB tryX w (redactedChars ++ Z) := by
  intro w
  have h0 := hBH 0 (by omega) w Z
  have h1 := hBH 1 (by omega) (isWordChar '[') Z
  have h2 := hBH 2 (by omega) (isWordChar 'R') Z
  have h3 := hBH 3 (by omega) (isWordChar 'E') Z
  have h4 := hBH 4 (by omega) (isWordChar 'D') Z
  have h5 := hBH 5 (by omega) (isWordChar 'A') Z
  have h6 := hBH 6 (by omega) (isWordChar 'C') Z
  have h7 := hBH 7 (by omega) (isWordChar 'T') Z
  have h8 := hBH 8 (by omega) (isWordChar 'E') Z
  have h9 := hBH 9 (by omega) (isWordChar 'D') Z
  simp only [redactedChars] at h0 h1 h2 h3 h4 h5 h6 h7 h8 h9 ⊢
  simp only [List.drop] at h0 h1 h2 h3 h4 h5 h6 h7 h8 h9
  simp only [List.cons_append, List.nil_append] at h0 h1 h2 h3 h4 h5 h6 h7 h8 h9 ⊢
  exact ⟨Or.inl h0, Or.inl h1, Or.inl h2, Or.inl h3, Or.inl h4, Or.inl h5, Or.inl h6,
    Or.inl h7, Or.inl h8, Or.inl h9, hZ⟩

/- Positional library for the rejection-transfer lemmas -/

theorem stripCI_drop : ∀ (kw s r : List Char), stripCI kw s = some r → r = s.drop kw.length := by
  intro kw
  induction kw with
  | nil => intro s r h; simp [stripCI] at h; simp [h]
  | cons k ks ih =>
    intro s r h
    cases s with
    | nil => simp [stripCI] at h
    | cons c cs =>
      simp only [stripCI] at h
      by_cases hc : c.toLower = k
      · simp [hc] at h
        simpa using ih cs r h
      · simp [hc] at h

theorem stripCI_junction : ∀ (kw b Y : List Char), b.length < kw.length →
    (∀ k ∈ kw, ¬ k = '[') → stripCI kw (b ++ '[' :: Y) = none := by
  intro kw
  induction kw with
  | nil => intro b Y h _; simp at h
  | cons k ks ih =>
    intro b Y hlen hk
    cases b with
    | nil =>
      simp only [List.nil_append, stripCI]
      have h1 : ('[' : Char).toLower = '[' := rfl
      rw [h1]
      have h2 : ¬ ('[' : Char) = k := fun he => hk k (by simp) he.symm
      simp [h2]
    | cons c cs =>
      simp only [List.cons_append, stripCI]
      by_cases hc : c.toLower = k
      · simp only [hc, if_pos rfl]
        refine ih cs Y ?_ (fun x hx => hk x (by simp [hx]))
        simp only [List.length_cons] at hlen
        omega
      · simp [hc]

theorem stripCI_append : ∀ (kw b X : List Char), kw.length ≤ b.length →
    stripCI kw (b ++ X) = (stripCI kw b).map (fun r => r ++ X) := by
  intro kw
  induction kw with
  | nil => intro b X h; simp [stripCI]
  | cons k ks ih =>
    intro b X hlen
    cases b with
    | nil => simp at hlen
    | cons c cs =>
      simp only [List.cons_append, stripCI]
      by_cases hc : c.toLower = k
      · simp only [hc, if_pos rfl]
        refine ih cs X ?_
        simp only [List.length_cons] at hlen
        omega
      · simp [hc]

theorem stripCS_junction : ∀ (kw b Y : List Char), b.length < kw.length →
    (∀ k ∈ kw, ¬ k = '[') → stripCS kw (b ++ '[' :: Y) = none := by
  intro kw
  induction kw with
  | nil => intro b Y h _; simp at h
  | cons k ks ih =>
    intro b Y hlen hk
    cases b with
    | nil =>
      simp only [List.nil_append, stripCS]
      have h2 : ¬ ('[' : Char) = k := fun he => hk k (by simp) he.symm
      simp [h2]
    | cons c cs =>
      simp only [List.cons_append, stripCS]
      by_cases hc : c = k
      · simp only [hc, if_pos rfl]
        refine ih cs Y ?_ (fun x hx => hk x (by simp [hx]))
        simp only [List.length_cons] at hlen
        omega
      · simp [hc]

theorem stripCS_append : ∀ (kw b X : List Char), kw.length ≤ b.length →
    stripCS kw (b ++ X) = (stripCS kw b).map (fun r => r ++ X) := by
  intro kw
  induction kw with
  | nil => intro b X h; simp [stripCS]
  | cons k ks ih =>
    intro b X hlen
    cases b with
    | nil => simp at hlen
    | cons c cs =>
      simp only [List.cons_append, stripCS]
      by_cases hc : c = k
      · simp only [hc, if_pos rfl]
        refine ih cs X ?_
        simp only [List.length_cons] at hlen
        omega
      · simp [hc]

theorem stripCI_charAt : ∀ (kw t r : List Char), stripCI kw t = some r →
    ∀ i (k : Char), kw.get? i = some k → ∃ c, t.get? i = some c ∧ c.toLower = k := by
  intro kw
  induction kw with
  | nil => intro t r _ i k hk; simp at hk
  | cons k0 ks ih =>
    intro t r h i k hk
    cases t with
    | nil => simp [stripCI] at h
    | cons c cs =>
      simp only [stripCI] at h
      by_cases hc : c.toLower = k0
      · simp only [hc, if_pos rfl] at h
        cases i with
        | zero =>
          simp only [List.get?_cons_zero, Option.some.injEq] at hk
          exact ⟨c, by simp, by rw [hc, hk]⟩
        | succ i' =>
          simp only [List.get?_cons_succ] at hk ⊢
          exact ih cs r h i' k hk
      · simp [hc] at h

theorem toLower_eq_self_of_nonword (c : Char) (h : isWordChar c = false) : c.toLower = c := by
  simp only [isWordChar, Bool.or_eq_false_iff, Bool.and_eq_false_iff,
    decide_eq_false_iff_not] at h
  obtain ⟨⟨⟨_, hAZ⟩, _⟩, _⟩ := h
  unfold Char.toLower
  rw [if_neg]
  intro hc
  have hA : ('A' : Char) ≤ c := hc.1
  have hZ : c ≤ ('Z' : Char) := hc.2
  rcases hAZ with h1 | h1
  · exact h1 hA
  · exact h1 hZ

theorem word_of_toLower (c k : Char) (hk : isWordChar k = true) (h : c.toLower = k) :
    isWordChar c = true := by
  by_cases hw : isWordChar c = true
  · exact hw
  · have := toLower_eq_self_of_nonword c (by simpa using hw)
    rw [this] at h
    rw [h] at hw
    exact absurd hk hw

theorem runLen_le (p : Char → Bool) : ∀ l : List Char, runLen p l ≤ l.length := by
  intro l
  induction l with
  | nil => simp [runLen]
  | cons c cs ih =>
    simp only [runLen, List.length_cons]
    by_cases hc : p c = true
    · simp [hc]; omega
    · simp [hc]

theorem runLen_eq_length_iff_all (p : Char → Bool) :
    ∀ l : List Char, runLen p l = l.length ↔ ∀ c ∈ l, p c = true := by
  intro l
  induction l with
  | nil => simp [runLen]
  | cons c cs ih =>
    by_cases hc : p c = true
    · simp only [runLen, hc, if_true, List.length_cons, List.mem_cons, Nat.add_right_cancel_iff]
      rw [ih]
      constructor
      · intro h x hx
        rcases hx with hx | hx
        · rw [hx]; exact hc
        · exact h x hx
      · intro h x hx
        exact h x (Or.inr hx)
    · have hc2 : p c = false := by simpa using hc
      simp only [runLen, hc2, Bool.false_eq_true, if_false, List.length_cons, List.mem_cons]
      constructor
      · intro h; omega
      · intro h
        exact absurd (h c (Or.inl rfl)) hc

theorem runLen_append (p : Char → Bool) :
    ∀ (b X : List Char), runLen p (b ++ X) =
      if runLen p b < b.length then runLen p b else b.length + runLen p X := by
  intro b
  induction b with
  | nil => intro X; simp [runLen]
  | cons c cs ih =>
    intro X
    by_cases hc : p c = true
    · simp only [List.cons_append, runLen, hc, if_true, List.length_cons, List.append_eq]
      rw [ih X]
      by_cases hlt : runLen p cs < cs.length
      · rw [if_pos hlt, if_pos (by omega)]
      · rw [if_neg hlt, if_neg (by omega)]
        omega
    · have hc2 : p c = false := by simpa using hc
      simp only [List.cons_append, runLen, hc2, Bool.false_eq_true, if_false, List.length_cons]
      rw [if_pos (by omega)]

theorem runLen_junction (p : Char → Bool) (h g : Char) (hh : p h = false) (hg : p g = false) :
    ∀ (b v v2 : List Char), runLen p (b ++ h :: v) = runLen p (b ++ g :: v2) := by
  intro b v v2
  rw [runLen_append, runLen_append]
  by_cases hlt : runLen p b < b.length
  · rw [if_pos hlt, if_pos hlt]
  · rw [if_neg hlt, if_neg hlt]
    simp [runLen, hh, hg]

theorem runLen_fail_le (p : Char → Bool) (h : Char) (hh : p h = false) (b v : List Char) :
    runLen p (b ++ h :: v) ≤ b.length := by
  rw [runLen_append]
  by_cases hlt : runLen p b < b.length
  · rw [if_pos hlt]; omega
  · rw [if_neg hlt]; simp [runLen, hh]

theorem runLen_ge_all (p : Char → Bool) (b X : List Char)
    (h : b.length ≤ runLen p (b ++ X)) : ∀ c ∈ b, p c = true := by
  rw [runLen_append] at h
  by_cases hlt : runLen p b < b.length
  · rw [if_pos hlt] at h; omega
  · have := runLen_le p b
    exact (runLen_eq_length_iff_all p b).mp (by omega)

theorem runLen_get (p : Char → Bool) :
    ∀ (l : List Char) (c : Char), l.get? (runLen p l) = some c → p c = false := by
  intro l
  induction l with
  | nil => intro c h; simp at h
  | cons d ds ih =>
    intro c h
    simp only [runLen] at h
    by_cases hd : p d = true
    · simp only [hd, if_pos rfl, List.get?_cons_succ] at h
      exact ih c h
    · simp only [hd, Bool.false_eq_true, if_false, List.get?_cons_zero,
        Option.some.injEq] at h
      rw [← h]
      simpa using hd

theorem charW_lt (a X : List Char) (i : Nat) (h : i < a.length) :
    charWordAt (a ++ X) i = charWordAt a i := by
  unfold charWordAt
  rw [List.get?_eq_getElem?, List.get?_eq_getElem?, List.getElem?_append, if_pos h]

theorem charW_at_len (a : List Char) (c : Char) (X : List Char) :
    charWordAt (a ++ c :: X) a.length = isWordChar c := by
  unfold charWordAt
  rw [List.get?_eq_getElem?, List.getElem?_append, if_neg (by omega)]
  simp

theorem bAt_agree (a X Y : List Char) (p : Nat) (h : p < a.length) :
    bAt (a ++ X) p = bAt (a ++ Y) p := by
  unfold bAt
  rw [charW_lt a X p h, charW_lt a Y p h, charW_lt a X (p-1) (by omega),
    charW_lt a Y (p-1) (by omega)]

theorem charW_last (a : List Char) (c : Char) (h : a.getLast? = some c) :
    charWordAt a (a.length - 1) = isWordChar c := by
  unfold charWordAt
  rw [List.get?_eq_getElem?, ← List.getLast?_eq_getElem?, h]

theorem bAt_junction (a : List Char) (c : Char) (X : List Char) (lc : Char)
    (hl : a.getLast? = some lc) :
    bAt (a ++ c :: X) a.length = (isWordChar lc != isWordChar c) := by
  have hne : a ≠ [] := by intro he; rw [he] at hl; simp at hl
  have hlen : 0 < a.length := List.length_pos.mpr hne
  unfold bAt
  rw [charW_at_len, charW_lt a _ _ (by omega), charW_last a lc hl]

theorem eqTrial_congr (s1 s2 : List Char) (base : Nat) :
    ∀ k, (∀ p, p ≤ base + k → bAt s1 p = bAt s2 p) →
      eqTrial s1 base k = eqTrial s2 base k := by
  intro k
  induction k with
  | zero =>
    intro h
    simp only [eqTrial, h base (by omega)]
  | succ j ih =>
    intro h
    simp only [eqTrial, h (base + j + 1) (by omega)]
    rw [ih (fun p hp => h p (by omega))]

theorem classTrial_congr (s1 s2 : List Char) (pre : Nat) :
    ∀ k, (∀ p, p ≤ pre + k → bAt s1 p = bAt s2 p) →
      classTrial s1 pre k = classTrial s2 pre k := by
  intro k
  induction k with
  | zero => intro _; simp [classTrial]
  | succ r ih =>
    intro h
    simp only [classTrial, h (pre + r + 1) (by omega)]
    rw [ih (fun p hp => h p (by omega))]

theorem eqTrial_none_iff (s : List Char) (base : Nat) :
    ∀ k, eqTrial s base k = none ↔ ∀ i, i ≤ k → bAt s (base + i) = false := by
  intro k
  induction k with
  | zero =>
    simp only [eqTrial]
    constructor
    · intro h i hi
      interval_cases i
      by_cases hb : bAt s base = true
      · rw [if_pos hb] at h; simp at h
      · simpa using hb
    · intro h
      have h0 := h 0 (by omega)
      simp only [Nat.add_zero] at h0
      rw [if_neg (by simp [h0])]
  | succ j ih =>
    simp only [eqTrial]
    constructor
    · intro h i hi
      by_cases hb : bAt s (base + j + 1) = true
      · rw [if_pos hb] at h; simp at h
      · rw [if_neg hb] at h
        rcases Nat.lt_or_ge i (j + 1) with hlt | hge
        · exact (ih.mp h) i (by omega)
        · have : i = j + 1 := by omega
          rw [this, ← Nat.add_assoc]
          simpa using hb
    · intro h
      rw [if_neg (by simp [show base + j + 1 = base + (j+1) by omega, h (j+1) (by omega)])]
      exact ih.mpr (fun i hi => h i (by omega))

theorem classTrial_none_iff (s : List Char) (pre : Nat) :
    ∀ k, classTrial s pre k = none ↔ ∀ r, 1 ≤ r → r ≤ k → bAt s (pre + r) = false := by
  intro k
  induction k with
  | zero => simp [classTrial]; omega
  | succ r ih =>
    simp only [classTrial]
    constructor
    · intro h i h1 h2
      by_cases hb : bAt s (pre + r + 1) = true
      · rw [if_pos hb] at h; simp at h
      · rw [if_neg hb] at h
        rcases Nat.lt_or_ge i (r + 1) with hlt | hge
        · exact (ih.mp h) i h1 (by omega)
        · have : i = r + 1 := by omega
          rw [this, ← Nat.add_assoc]
          simpa using hb
    · intro h
      rw [if_neg (by simp [show pre + r + 1 = pre + (r+1) by omega, h (r+1) (by omega) (by omega)])]
      exact ih.mpr (fun i h1 h2 => h i h1 (by omega))

theorem eqTrial_bAt (s : List Char) (base : Nat) :
    ∀ k v, eqTrial s base k = some v → bAt s v = true := by
  intro k
  induction k with
  | zero =>
    intro v h
    simp only [eqTrial] at h
    by_cases hb : bAt s base = true
    · rw [if_pos hb] at h
      simp only [Option.some.injEq] at h
      rw [← h]; exact hb
    · rw [if_neg hb] at h; simp at h
  | succ j ih =>
    intro v h
    simp only [eqTrial] at h
    by_cases hb : bAt s (base + j + 1) = true
    · rw [if_pos hb] at h
      simp only [Option.some.injEq] at h
      rw [← h]; exact hb
    · rw [if_neg hb] at h
      exact ih v h

theorem classTrial_bAt (s : List Char) (pre : Nat) :
    ∀ k v, classTrial s pre k = some v → bAt s v = true := by
  intro k
  induction k with
  | zero => intro v h; simp [classTrial] at h
  | succ r ih =>
    intro v h
    simp only [classTrial] at h
    by_cases hb : bAt s (pre + r + 1) = true
    · rw [if_pos hb] at h
      simp only [Option.some.injEq] at h
      rw [← h]; exact hb
    · rw [if_neg hb] at h
      exact ih v h

theorem get?_drop_bridge (l : List Char) (i j : Nat) : (l.drop i).get? j = l.get? (i+j) := by
  rw [List.get?_eq_getElem?, List.get?_eq_getElem?, List.getElem?_drop]

theorem stripCI_head (k : Char) (ks : List Char) (c : Char) (cs r : List Char)
    (h : stripCI (k :: ks) (c :: cs) = some r) : c.toLower = k := by
  simp only [stripCI] at h
  by_cases hc : c.toLower = k
  · exact hc
  · simp [hc] at h

theorem stripCS_head (k : Char) (ks : List Char) (c : Char) (cs r : List Char)
    (h : stripCS (k :: ks) (c :: cs) = some r) : c = k := by
  simp only [stripCS] at h
  by_cases hc : c = k
  · exact hc
  · simp [hc] at h

theorem word_of_val_fail (c : Char) (h : isValChar c = false) : isWordChar c = false := by
  have hd : c = '\'' ∨ c = '"' ∨ c = ' ' ∨ c = '\t' ∨ c = '\n' ∨ c = '\r' ∨
      c = '\x0b' ∨ c = '\x0c' := by
    simp only [isValChar, isPySpace, Bool.not_eq_false', Bool.or_eq_true,
      decide_eq_true_eq] at h
    tauto
  rcases hd with h|h|h|h|h|h|h|h <;> subst h <;> decide

theorem classTrial_pos (s : List Char) (pre : Nat) :
    ∀ k v, classTrial s pre k = some v → pre + 1 ≤ v := by
  intro k
  induction k with
  | zero => intro v h; simp [classTrial] at h
  | succ r ih =>
    intro v h
    simp only [classTrial] at h
    by_cases hb : bAt s (pre + r + 1) = true
    · rw [if_pos hb] at h
      simp only [Option.some.injEq] at h
      omega
    · rw [if_neg hb] at h
      exact ih v h

theorem sepValueTail_pos (s : List Char) (off : Nat) (e : Nat)
    (h : sepValueTail s off = some e) : 1 ≤ e := by
  unfold sepValueTail at h
  simp only [] at h
  split at h
  · simp at h
  · split at h
    · split at h
      · simp at h
      · split at h
        · split at h
          · simp at h
          · simp only [Option.some.injEq] at h; omega
        · split at h
          · simp at h
          · simp only [Option.some.injEq] at h; omega
    · simp at h

theorem sepValueTail_stop (s : List Char) (off : Nat) (e : Nat)
    (h : sepValueTail s off = some e) : charWordAt s e = false := by
  unfold sepValueTail at h
  simp only [] at h
  split at h
  · simp at h
  · split at h
    · split at h
      · simp at h
      · split at h
        · split at h
          · simp at h
          · simp only [Option.some.injEq] at h
            subst h
            unfold charWordAt
            rcases hs : s.get? (off + runLen isPySpace (s.drop off) + 1 +
                runLen isPySpace (s.drop (off + runLen isPySpace (s.drop off) + 1)) + 1 +
                runLen isValChar (s.drop (off + runLen isPySpace (s.drop off) + 1 +
                  runLen isPySpace (s.drop (off + runLen isPySpace (s.drop off) + 1)) + 1)))
                with _ | cv
            · rfl
            · have hr := runLen_get isValChar (s.drop (off + runLen isPySpace (s.drop off) + 1 +
                runLen isPySpace (s.drop (off + runLen isPySpace (s.drop off) + 1)) + 1))
              rw [get?_drop_bridge] at hr
              exact word_of_val_fail cv (hr cv hs)
        · split at h
          · simp at h
          · simp only [Option.some.injEq] at h
            subst h
            unfold charWordAt
            rcases hs : s.get? (off + runLen isPySpace (s.drop off) + 1 +
                runLen isPySpace (s.drop (off + runLen isPySpace (s.drop off) + 1)) +
                runLen isValChar (s.drop (off + runLen isPySpace (s.drop off) + 1 +
                  runLen isPySpace (s.drop (off + runLen isPySpace (s.drop off) + 1)))))
                with _ | cv
            · rfl
            · have hr := runLen_get isValChar (s.drop (off + runLen isPySpace (s.drop off) + 1 +
                runLen isPySpace (s.drop (off + runLen isPySpace (s.drop off) + 1))))
              rw [get?_drop_bridge] at hr
              exact word_of_val_fail cv (hr cv hs)
    · simp at h

theorem bearerTail_pos (s : List Char) (off : Nat) (e : Nat)
    (h : bearerTail s off = some e) : off + 2 ≤ e := by
  unfold bearerTail at h
  simp only [] at h
  split at h
  · simp at h
  · split at h
    · simp at h
    · next hw hcl =>
      split at h
      · next v heq =>
        simp only [Option.some.injEq] at h
        subst h
        have := eqTrial_ge s _ _ v heq
        omega
      · have := classTrial_pos s _ _ e h
        omega

theorem bearerTail_bAt (s : List Char) (off : Nat) (e : Nat)
    (h : bearerTail s off = some e) : bAt s e = true := by
  unfold bearerTail at h
  simp only [] at h
  split at h
  · simp at h
  · split at h
    · simp at h
    · split at h
      · next v heq =>
        simp only [Option.some.injEq] at h
        subst h
        exact eqTrial_bAt s _ _ v heq
      · exact classTrial_bAt s _ _ e h

theorem tryAuthorization_true (s : List Char) : tryAuthorization true s = none := rfl
theorem tryBearer_true (s : List Char) : tryBearer true s = none := rfl
theorem tryAkia_true (s : List Char) : tryAkia true s = none := rfl
theorem tryApiKey_true (s : List Char) : tryApiKey true s = none := rfl
theorem tryToken_true (s : List Char) : tryToken true s = none := rfl

theorem tryToken_headword (c : Char) (t : List Char) (w : Bool)
    (h : isWordChar c = false) : tryToken w (c :: t) = none := by
  cases w
  · rcases hs : stripCI "token".data (c :: t) with _ | r
    · simp [tryToken, hs]
    · obtain ⟨c', hc', hl⟩ := stripCI_charAt _ _ _ hs 0 't' rfl
      simp only [List.get?_cons_zero, Option.some.injEq] at hc'
      rw [hc', word_of_toLower c' 't' (by decide) hl] at h
      simp at h
  · exact tryToken_true _

theorem tryBearer_headword (c : Char) (t : List Char) (w : Bool)
    (h : isWordChar c = false) : tryBearer w (c :: t) = none := by
  cases w
  · rcases hs : stripCI "bearer".data (c :: t) with _ | r
    · simp [tryBearer, hs]
    · obtain ⟨c', hc', hl⟩ := stripCI_charAt _ _ _ hs 0 'b' rfl
      simp only [List.get?_cons_zero, Option.some.injEq] at hc'
      rw [hc', word_of_toLower c' 'b' (by decide) hl] at h
      simp at h
  · exact tryBearer_true _

theorem tryAuthorization_headword (c : Char) (t : List Char) (w : Bool)
    (h : isWordChar c = false) : tryAuthorization w (c :: t) = none := by
  cases w
  · rcases hs : stripCI "authorization:".data (c :: t) with _ | r
    · simp [tryAuthorization, hs]
    · obtain ⟨c', hc', hl⟩ := stripCI_charAt _ _ _ hs 0 'a' rfl
      simp only [List.get?_cons_zero, Option.some.injEq] at hc'
      rw [hc', word_of_toLower c' 'a' (by decide) hl] at h
      simp at h
  · exact tryAuthorization_true _

theorem tryAkia_headword (c : Char) (t : List Char) (w : Bool)
    (h : isWordChar c = false) : tryAkia w (c :: t) = none := by
  cases w
  · rcases hs : stripCS "AKIA".data (c :: t) with _ | r
    · simp [tryAkia, hs]
    · have hd : "AKIA".data = 'A' :: "KIA".data := rfl
      rw [hd] at hs
      have hca := stripCS_head _ _ _ _ _ hs
      subst hca
      exact absurd h (by decide)
  · exact tryAkia_true _

theorem tryApiKey_headword (c : Char) (t : List Char) (w : Bool)
    (h : isWordChar c = false) : tryApiKey w (c :: t) = none := by
  cases w
  · have h1 : stripCI "openai".data (c :: t) = none := by
      rcases hs : stripCI "openai".data (c :: t) with _ | r
      · rfl
      · obtain ⟨c', hc', hl⟩ := stripCI_charAt _ _ _ hs 0 'o' rfl
        simp only [List.get?_cons_zero, Option.some.injEq] at hc'
        rw [hc', word_of_toLower c' 'o' (by decide) hl] at h
        simp at h
    have h2 : stripCI "api".data (c :: t) = none := by
      rcases hs : stripCI "api".data (c :: t) with _ | r
      · rfl
      · obtain ⟨c', hc', hl⟩ := stripCI_charAt _ _ _ hs 0 'a' rfl
        simp only [List.get?_cons_zero, Option.some.injEq] at hc'
        rw [hc', word_of_toLower c' 'a' (by decide) hl] at h
        simp at h
    simp [tryApiKey, h1, h2]
  · exact tryApiKey_true _

theorem tryToken_matchhead (c : Char) (t : List Char) (w : Bool) (m : Nat)
    (h : tryToken w (c :: t) = some m) : w = false ∧ isWordChar c = true := by
  cases w
  · refine ⟨rfl, ?_⟩
    by_contra hw
    rw [tryToken_headword c t false (by simpa using hw)] at h
    simp at h
  · rw [tryToken_true] at h; simp at h

theorem tryBearer_matchhead (c : Char) (t : List Char) (w : Bool) (m : Nat)
    (h : tryBearer w (c :: t) = some m) : w = false ∧ isWordChar c = true := by
  cases w
  · refine ⟨rfl, ?_⟩
    by_contra hw
    rw [tryBearer_headword c t false (by simpa using hw)] at h
    simp at h
  · rw [tryBearer_true] at h; simp at h

theorem tryAuthorization_matchhead (c : Char) (t : List Char) (w : Bool) (m : Nat)
    (h : tryAuthorization w (c :: t) = some m) : w = false ∧ isWordChar c = true := by
  cases w
  · refine ⟨rfl, ?_⟩
    by_contra hw
    rw [tryAuthorization_headword c t false (by simpa using hw)] at h
    simp at h
  · rw [tryAuthorization_true] at h; simp at h

theorem tryAkia_matchhead (c : Char) (t : List Char) (w : Bool) (m : Nat)
    (h : tryAkia w (c :: t) = some m) : w = false ∧ isWordChar c = true := by
  cases w
  · refine ⟨rfl, ?_⟩
    by_contra hw
    rw [tryAkia_headword c t false (by simpa using hw)] at h
    simp at h
  · rw [tryAkia_true] at h; simp at h

theorem tryApiKey_matchhead (c : Char) (t : List Char) (w : Bool) (m : Nat)
    (h : tryApiKey w (c :: t) = some m) : w = false ∧ isWordChar c = true := by
  cases w
  · refine ⟨rfl, ?_⟩
    by_contra hw
    rw [tryApiKey_headword c t false (by simpa using hw)] at h
    simp at h
  · rw [tryApiKey_true] at h; simp at h

theorem bAt_imp (s : List Char) (m : Nat) (h : bAt s m = true)
    (h1 : charWordAt s (m-1) = true) : charWordAt s m = false := by
  unfold bAt at h
  rw [h1] at h
  rcases hc : charWordAt s m with _ | _
  · rfl
  · rw [hc] at h; simp at h

theorem tryToken_after (s : List Char) (w : Bool) (m : Nat)
    (h : tryToken w s = some m) :
    1 ≤ m ∧ (charWordAt s (m-1) = true → charWordAt s m = false) := by
  unfold tryToken at h
  split at h
  · simp at h
  · split at h
    · simp at h
    · split at h
      · exact ⟨sepValueTail_pos s 5 m h, fun _ => sepValueTail_stop s 5 m h⟩
      · simp at h

theorem keyTail_stop (s : List Char) (p : Nat) (m : Nat)
    (h : keyTail s p = some m) :
    1 ≤ m ∧ charWordAt s m = false := by
  unfold keyTail at h
  split at h
  · simp at h
  · split at h
    · exact ⟨sepValueTail_pos s (p+3) m h, sepValueTail_stop s (p+3) m h⟩
    · simp at h

theorem apiKeyFrom_stop (s : List Char) (g : Nat) (m : Nat)
    (h : apiKeyFrom s g = some m) :
    1 ≤ m ∧ charWordAt s m = false := by
  unfold apiKeyFrom at h
  split at h
  · split at h
    · split at h
      · next v heq =>
        simp only [Option.some.injEq] at h
        subst h
        exact keyTail_stop s _ v heq
      · exact keyTail_stop s _ m h
    · exact keyTail_stop s _ m h
  · exact keyTail_stop s _ m h

theorem tryApiKey_after (s : List Char) (w : Bool) (m : Nat)
    (h : tryApiKey w s = some m) :
    1 ≤ m ∧ (charWordAt s (m-1) = true → charWordAt s m = false) := by
  unfold tryApiKey at h
  split at h
  · simp at h
  · split at h
    · split at h
      · next v heq =>
        simp only [Option.some.injEq] at h
        subst h
        obtain ⟨h1, h2⟩ := apiKeyFrom_stop s 6 v heq
        exact ⟨h1, fun _ => h2⟩
      · split at h
        · obtain ⟨h1, h2⟩ := apiKeyFrom_stop s 3 m h
          exact ⟨h1, fun _ => h2⟩
        · simp at h
    · split at h
      · obtain ⟨h1, h2⟩ := apiKeyFrom_stop s 3 m h
        exact ⟨h1, fun _ => h2⟩
      · simp at h

theorem tryAkia_after (s : List Char) (w : Bool) (m : Nat)
    (h : tryAkia w s = some m) :
    1 ≤ m ∧ (charWordAt s (m-1) = true → charWordAt s m = false) := by
  unfold tryAkia at h
  split at h
  · simp at h
  · split at h
    · simp at h
    · split at h
      · split at h
        · next hb =>
          simp only [Option.some.injEq] at h
          subst h
          exact ⟨by omega, bAt_imp s 20 hb⟩
        · simp at h
      · simp at h

theorem tryBearer_after (s : List Char) (w : Bool) (m : Nat)
    (h : tryBearer w s = some m) :
    1 ≤ m ∧ (charWordAt s (m-1) = true → charWordAt s m = false) := by
  unfold tryBearer at h
  split at h
  · simp at h
  · split at h
    · simp at h
    · have hp := bearerTail_pos s 6 m h
      exact ⟨by omega, bAt_imp s m (bearerTail_bAt s 6 m h)⟩

theorem tryAuthorization_after (s : List Char) (w : Bool) (m : Nat)
    (h : tryAuthorization w s = some m) :
    1 ≤ m ∧ (charWordAt s (m-1) = true → charWordAt s m = false) := by
  unfold tryAuthorization at h
  simp only [] at h
  split at h
  · simp at h
  · split at h
    · simp at h
    · split at h
      · simp at h
      · have hp := bearerTail_pos s _ m h
        exact ⟨by omega, bAt_imp s m (bearerTail_bAt s _ m h)⟩

theorem tryToken_blockhead (i : Nat) (hi : i ≤ 9) (w : Bool) (Y : List Char) :
    tryToken w (redactedChars.drop i ++ Y) = none := by
  interval_cases i <;> cases w <;> rfl

theorem tryBearer_blockhead (i : Nat) (hi : i ≤ 9) (w : Bool) (Y : List Char) :
    tryBearer w (redactedChars.drop i ++ Y) = none := by
  interval_cases i <;> cases w <;> rfl

theorem tryAuthorization_blockhead (i : Nat) (hi : i ≤ 9) (w : Bool) (Y : List Char) :
    tryAuthorization w (redactedChars.drop i ++ Y) = none := by
  interval_cases i <;> cases w <;> rfl

theorem tryAkia_blockhead (i : Nat) (hi : i ≤ 9) (w : Bool) (Y : List Char) :
    tryAkia w (redactedChars.drop i ++ Y) = none := by
  interval_cases i <;> cases w <;> rfl

theorem tryApiKey_blockhead (i : Nat) (hi : i ≤ 9) (w : Bool) (Y : List Char) :
    tryApiKey w (redactedChars.drop i ++ Y) = none := by
  interval_cases i <;> cases w <;> rfl

theorem word_val (c : Char) (h : isWordChar c = true) : isValChar c = true := by
  rcases hv : isValChar c with _ | _
  · rw [word_of_val_fail c hv] at h; simp at h
  · rfl

theorem word_not_space (c : Char) (h : isWordChar c = true) : isPySpace c = false := by
  have := word_val c h
  simp only [isValChar, Bool.not_eq_true', Bool.or_eq_false_iff] at this
  exact this.2

theorem word_not_quote (c : Char) (h : isWordChar c = true) :
    ¬ (c = '\'' ∨ c = '"') := by
  have := word_val c h
  simp only [isValChar, Bool.not_eq_true', Bool.or_eq_false_iff,
    decide_eq_false_iff_not] at this
  intro hc
  rcases hc with hc | hc
  · exact this.1.1 hc
  · exact this.1.2 hc

theorem word_not_colon_eq (c : Char) (h : isWordChar c = true) :
    ¬ (c = ':' ∨ c = '=') := by
  intro hc
  rcases hc with hc | hc <;> subst hc <;> exact absurd h (by decide)

theorem get?_at_len (a : List Char) (c : Char) (X : List Char) :
    (a ++ c :: X).get? a.length = some c := by
  rw [List.get?_eq_getElem?, List.getElem?_append, if_neg (by omega)]
  simp

theorem get?_append_lt (a X : List Char) (i : Nat) (h : i < a.length) :
    (a ++ X).get? i = a.get? i := by
  rw [List.get?_eq_getElem?, List.get?_eq_getElem?, List.getElem?_append, if_pos h]

theorem drop_at_len (a X : List Char) : (a ++ X).drop a.length = X := by
  rw [List.drop_append_of_le_length (le_refl _), List.drop_length, List.nil_append]

theorem runLen_zero_head (p : Char → Bool) (b X X' : List Char)
    (h : runLen p (b ++ X) = 0) (hb : 0 < b.length) : runLen p (b ++ X') = 0 := by
  rw [runLen_append] at h ⊢
  by_cases hlt : runLen p b < b.length
  · rw [if_pos hlt] at h ⊢; exact h
  · rw [if_neg hlt] at h; omega

theorem get?_lt_some (a : List Char) (i : Nat) (h : i < a.length) :
    ∃ c, a.get? i = some c := by
  rcases hg : a.get? i with _ | c
  · rw [List.get?_eq_getElem?] at hg
    rw [List.getElem?_eq_none_iff] at hg
    omega
  · exact ⟨c, rfl⟩

theorem TR_sep (a : List Char) (h0 : Char) (v Y : List Char) (off : Nat)
    (hw : isWordChar h0 = true) (hoff : off < a.length)
    (hn : sepValueTail (a ++ h0 :: v) off = none) :
    sepValueTail (a ++ '[' :: Y) off = none := by
  have hsp : isPySpace h0 = false := word_not_space h0 hw
  have hval : isValChar h0 = true := word_val h0 hw
  have hd1 : (a ++ h0 :: v).drop off = a.drop off ++ h0 :: v :=
    List.drop_append_of_le_length (by omega)
  have hd2 : (a ++ '[' :: Y).drop off = a.drop off ++ '[' :: Y :=
    List.drop_append_of_le_length (by omega)
  unfold sepValueTail at hn ⊢
  simp only [] at hn ⊢
  set M := runLen isPySpace ((a ++ h0 :: v).drop off) with hM
  have hm2 : runLen isPySpace ((a ++ '[' :: Y).drop off) = M := by
    rw [hM, hd1, hd2, runLen_junction isPySpace '[' h0 (by decide) hsp]
  simp only [hm2]
  have hMle : off + M ≤ a.length := by
    have hb := runLen_fail_le isPySpace h0 hsp (a.drop off) v
    rw [← hd1, ← hM] at hb
    have hld := List.length_drop off a
    omega
  split
  · rfl
  · next c hgc =>
    split
    · next hcc =>
      by_cases hqe : off + M = a.length
      · rw [hqe, get?_at_len] at hgc
        injection hgc with hgc
        subst hgc
        simp at hcc
      · have hlt : off + M < a.length := by omega
        have hsc1 : (a ++ h0 :: v).get? (off + M) = some c := by
          rw [get?_append_lt _ _ _ hlt, ← get?_append_lt a ('[' :: Y) _ hlt, hgc]
        rw [hsc1] at hn
        simp only [] at hn
        rw [if_pos hcc] at hn
        have hd1b : (a ++ h0 :: v).drop (off + M + 1) = a.drop (off + M + 1) ++ h0 :: v :=
          List.drop_append_of_le_length (by omega)
        have hd2b : (a ++ '[' :: Y).drop (off + M + 1) = a.drop (off + M + 1) ++ '[' :: Y :=
          List.drop_append_of_le_length (by omega)
        set M2 := runLen isPySpace ((a ++ h0 :: v).drop (off + M + 1)) with hM2
        have hm2b : runLen isPySpace ((a ++ '[' :: Y).drop (off + M + 1)) = M2 := by
          rw [hM2, hd1b, hd2b, runLen_junction isPySpace '[' h0 (by decide) hsp]
        simp only [hm2b]
        have hM2le : off + M + 1 + M2 ≤ a.length := by
          have hb := runLen_fail_le isPySpace h0 hsp (a.drop (off + M + 1)) v
          rw [← hd1b, ← hM2] at hb
          have hld := List.length_drop (off + M + 1) a
          omega
        split
        · rfl
        · next c2 hgc2 =>
          by_cases hqe2 : off + M + 1 + M2 = a.length
          · -- the second probe sits exactly at the junction: the original
            -- string has the word character h0 there, so its value run is
            -- nonempty and the original call returns `some`, contradiction
            rw [hqe2] at hn
            rw [get?_at_len] at hn
            simp only [] at hn
            rw [if_neg (by
              intro hq
              exact word_not_quote h0 hw (by simpa using hq))] at hn
            rw [drop_at_len] at hn
            have hv1 : runLen isValChar (h0 :: v) ≠ 0 := by
              simp [runLen, hval]
            rw [if_neg hv1] at hn
            simp at hn
          · have hlt2 : off + M + 1 + M2 < a.length := by omega
            have hsc2 : (a ++ h0 :: v).get? (off + M + 1 + M2) = some c2 := by
              rw [get?_append_lt _ _ _ hlt2, ← get?_append_lt a ('[' :: Y) _ hlt2, hgc2]
            rw [hsc2] at hn
            simp only [] at hn
            split
            · next hq2 =>
              rw [if_pos hq2] at hn
              by_cases hqe3 : off + M + 1 + M2 + 1 = a.length
              · rw [hqe3, drop_at_len] at hn
                have hv1 : runLen isValChar (h0 :: v) ≠ 0 := by
                  simp [runLen, hval]
                rw [if_neg hv1] at hn
                simp at hn
              · have hlt3 : off + M + 1 + M2 + 1 ≤ a.length := by omega
                have hd1c : (a ++ h0 :: v).drop (off + M + 1 + M2 + 1) =
                    a.drop (off + M + 1 + M2 + 1) ++ h0 :: v :=
                  List.drop_append_of_le_length hlt3
                have hd2c : (a ++ '[' :: Y).drop (off + M + 1 + M2 + 1) =
                    a.drop (off + M + 1 + M2 + 1) ++ '[' :: Y :=
                  List.drop_append_of_le_length hlt3
                rw [hd1c] at hn
                rw [hd2c]
                by_cases hv0 : runLen isValChar (a.drop (off + M + 1 + M2 + 1) ++ h0 :: v) = 0
                · have hz : runLen isValChar (a.drop (off + M + 1 + M2 + 1) ++ '[' :: Y) = 0 := by
                    refine runLen_zero_head isValChar _ _ _ hv0 ?_
                    have hld := List.length_drop (off + M + 1 + M2 + 1) a
                    omega
                  rw [if_pos hz]
                · rw [if_neg hv0] at hn
                  simp at hn
            · next hq2 =>
              rw [if_neg hq2] at hn
              have hlt3 : off + M + 1 + M2 ≤ a.length := by omega
              have hd1c : (a ++ h0 :: v).drop (off + M + 1 + M2) =
                  a.drop (off + M + 1 + M2) ++ h0 :: v :=
                List.drop_append_of_le_length hlt3
              have hd2c : (a ++ '[' :: Y).drop (off + M + 1 + M2) =
                  a.drop (off + M + 1 + M2) ++ '[' :: Y :=
                List.drop_append_of_le_length hlt3
              rw [hd1c] at hn
              rw [hd2c]
              by_cases hv0 : runLen isValChar (a.drop (off + M + 1 + M2) ++ h0 :: v) = 0
              · have hz : runLen isValChar (a.drop (off + M + 1 + M2) ++ '[' :: Y) = 0 := by
                  refine runLen_zero_head isValChar _ _ _ hv0 ?_
                  have hld := List.length_drop (off + M + 1 + M2) a
                  omega
                rw [if_pos hz]
              · rw [if_neg hv0] at hn
                simp at hn
    · rfl

theorem last_nonword_charW (a : List Char) (hne : a ≠ [])
    (hl : ∀ c, a.getLast? = some c → isWordChar c = false) :
    charWordAt a (a.length - 1) = false := by
  rcases hgl : a.getLast? with _ | lc
  · rw [List.getLast?_eq_none_iff] at hgl
    exact absurd hgl hne
  · rw [charW_last a lc hgl]
    exact hl lc hgl

theorem TR_token (a : List Char) (h0 : Char) (v Y : List Char) (w : Bool)
    (hw : isWordChar h0 = true) (hemp : a = [] → w = false)
    (hl : ∀ c, a.getLast? = some c → isWordChar c = false)
    (hn : tryToken w (a ++ h0 :: v) = none) :
    tryToken w (a ++ '[' :: Y) = none := by
  cases w
  · rcases a with _ | ⟨a0, a'⟩
    · exact tryToken_headword '[' Y false (by decide)
    · have hne : (a0 :: a') ≠ ([] : List Char) := by simp
      set a := a0 :: a' with ha
      by_cases hj : a.length < 5
      · unfold tryToken
        rw [if_neg (by simp)]
        rw [stripCI_junction "token".data a Y (by simpa using hj) (by decide)]
      · push_neg at hj
        unfold tryToken at hn ⊢
        rw [if_neg (by simp)] at hn ⊢
        rw [stripCI_append "token".data a (h0 :: v) (by simpa using hj)] at hn
        rw [stripCI_append "token".data a ('[' :: Y) (by simpa using hj)]
        rcases hst : stripCI "token".data a with _ | r
        · rw [hst] at hn
          rfl
        · rw [hst] at hn
          simp only [Option.map_some'] at hn ⊢
          by_cases hj5 : a.length = 5
          · have hb2 : bAt (a ++ '[' :: Y) 5 = false := by
              unfold bAt
              have h5 : (5:Nat) = a.length := hj5.symm
              rw [h5, charW_at_len, charW_lt a _ _ (by omega),
                last_nonword_charW a hne hl]
              decide
            rw [hb2]
            simp
          · have hlt : 5 < a.length := by omega
            rw [show bAt (a ++ '[' :: Y) 5 = bAt (a ++ h0 :: v) 5 from
              bAt_agree a ('[' :: Y) (h0 :: v) 5 hlt]
            rcases hb : bAt (a ++ h0 :: v) 5 with _ | _
            · simp [hb]
            · rw [hb] at hn
              simp only [if_true] at hn ⊢
              exact TR_sep a h0 v Y 5 hw hlt hn
  · exact tryToken_true _


theorem upper_word (c : Char) (h : isUpperDigit c = true) : isWordChar c = true := by
  simp only [isUpperDigit, Bool.or_eq_true, Bool.and_eq_true, decide_eq_true_eq] at h
  simp only [isWordChar, Bool.or_eq_true, Bool.and_eq_true, decide_eq_true_eq]
  tauto

theorem stripCS_drop : ∀ (kw s r : List Char), stripCS kw s = some r → r = s.drop kw.length := by
  intro kw
  induction kw with
  | nil => intro s r h; simp [stripCS] at h; simp [h]
  | cons k ks ih =>
    intro s r h
    cases s with
    | nil => simp [stripCS] at h
    | cons c cs =>
      simp only [stripCS] at h
      by_cases hc : c = k
      · simp [hc] at h
        simpa using ih cs r h
      · simp [hc] at h

theorem TR_akia (a : List Char) (h0 : Char) (v Y : List Char) (w : Bool)
    (hw : isWordChar h0 = true) (hemp : a = [] → w = false)
    (hl : ∀ c, a.getLast? = some c → isWordChar c = false)
    (hn : tryAkia w (a ++ h0 :: v) = none) :
    tryAkia w (a ++ '[' :: Y) = none := by
  cases w
  · rcases a with _ | ⟨a0, a'⟩
    · exact tryAkia_headword '[' Y false (by decide)
    · have hne : (a0 :: a') ≠ ([] : List Char) := by simp
      set a := a0 :: a' with ha
      by_cases hj : a.length < 4
      · unfold tryAkia
        rw [if_neg (by simp)]
        rw [stripCS_junction "AKIA".data a Y (by simpa using hj) (by decide)]
      · push_neg at hj
        unfold tryAkia at hn ⊢
        rw [if_neg (by simp)] at hn ⊢
        rw [stripCS_append "AKIA".data a (h0 :: v) (by simpa using hj)] at hn
        rw [stripCS_append "AKIA".data a ('[' :: Y) (by simpa using hj)]
        rcases hst : stripCS "AKIA".data a with _ | r
        · rw [hst] at hn
          rfl
        · rw [hst] at hn
          simp only [Option.map_some'] at hn ⊢
          have hr : r = a.drop 4 := by
            have hd := stripCS_drop "AKIA".data a r hst
            simpa using hd
          have hrlen : r.length = a.length - 4 := by rw [hr, List.length_drop]
          by_cases hj20 : a.length < 20
          · rw [if_neg]
            intro hcond
            simp only [Bool.and_eq_true, decide_eq_true_eq, List.all_eq_true] at hcond
            have h16 : (r ++ '[' :: Y).take 16 = r ++ ('[' :: Y).take (16 - r.length) := by
              rw [List.take_append_eq_append_take, List.take_of_length_le (by omega)]
            have hpos : 16 - r.length = (15 - r.length) + 1 := by omega
            have hmem : '[' ∈ (r ++ '[' :: Y).take 16 := by
              rw [h16, hpos, List.take_succ_cons]
              simp
            exact absurd (hcond.2 '[' hmem) (by decide)
          · push_neg at hj20
            have htk1 : (r ++ h0 :: v).take 16 = r.take 16 :=
              List.take_append_of_le_length (by omega)
            have htk2 : (r ++ '[' :: Y).take 16 = r.take 16 :=
              List.take_append_of_le_length (by omega)
            rw [htk1] at hn
            rw [htk2]
            split
            · next hcond =>
              rw [if_pos hcond] at hn
              by_cases hj20e : a.length = 20
              · exfalso
                simp only [Bool.and_eq_true, decide_eq_true_eq, List.all_eq_true] at hcond
                have hr16 : r.take 16 = r := List.take_of_length_le (by omega)
                rcases hgl : a.getLast? with _ | lc
                · rw [List.getLast?_eq_none_iff] at hgl
                  exact hne hgl
                · have hlw : isWordChar lc = false := hl lc hgl
                  have hlc : a[19]? = some lc := by
                    rw [List.getLast?_eq_getElem?] at hgl
                    rw [show (19:Nat) = a.length - 1 by omega]
                    exact hgl
                  have h15 : (a.drop 4)[15]? = some lc := by
                    rw [List.getElem?_drop]
                    exact hlc
                  have hmem : lc ∈ r.take 16 := by
                    rw [hr16, hr]
                    exact List.getElem?_mem h15
                  have := upper_word lc (hcond.2 lc hmem)
                  rw [this] at hlw
                  simp at hlw
              · have hlt : 20 < a.length := by omega
                rw [show bAt (a ++ '[' :: Y) 20 = bAt (a ++ h0 :: v) 20 from
                  bAt_agree a ('[' :: Y) (h0 :: v) 20 hlt]
                rcases hb : bAt (a ++ h0 :: v) 20 with _ | _
                · simp [hb]
                · rw [hb] at hn
                  simp at hn
            · rfl
  · exact tryAkia_true _

theorem TR_bt (a : List Char) (h0 : Char) (v Y : List Char) (off : Nat)
    (hw : isWordChar h0 = true)
    (hl : ∀ c, a.getLast? = some c → isWordChar c = false)
    (hoff : off ≤ a.length)
    (hn : bearerTail (a ++ h0 :: v) off = none) :
    bearerTail (a ++ '[' :: Y) off = none := by
  have hsp : isPySpace h0 = false := word_not_space h0 hw
  have hclh : isB64Class h0 = true := word_sub_class h0 hw
  have heqh : (fun c => decide (c = '=')) h0 = false := by
    simp only [decide_eq_false_iff_not]
    intro he
    rw [he] at hw
    exact absurd hw (by decide)
  have hd1 : (a ++ h0 :: v).drop off = a.drop off ++ h0 :: v :=
    List.drop_append_of_le_length hoff
  have hd2 : (a ++ '[' :: Y).drop off = a.drop off ++ '[' :: Y :=
    List.drop_append_of_le_length hoff
  unfold bearerTail at hn ⊢
  simp only [] at hn ⊢
  set W := runLen isPySpace ((a ++ h0 :: v).drop off) with hW
  have hw2 : runLen isPySpace ((a ++ '[' :: Y).drop off) = W := by
    rw [hW, hd1, hd2, runLen_junction isPySpace '[' h0 (by decide) hsp]
  simp only [hw2]
  by_cases hW0 : W = 0
  · rw [if_pos hW0]
  · rw [if_neg hW0] at hn ⊢
    have hWle : off + W ≤ a.length := by
      have hb := runLen_fail_le isPySpace h0 hsp (a.drop off) v
      rw [← hd1, ← hW] at hb
      have hld := List.length_drop off a
      omega
    have hd1b : (a ++ h0 :: v).drop (off + W) = a.drop (off + W) ++ h0 :: v :=
      List.drop_append_of_le_length hWle
    have hd2b : (a ++ '[' :: Y).drop (off + W) = a.drop (off + W) ++ '[' :: Y :=
      List.drop_append_of_le_length hWle
    rw [hd1b] at hn
    rw [hd2b]
    have hblen : (a.drop (off + W)).length = a.length - (off + W) := List.length_drop _ _
    by_cases hcase : runLen isB64Class (a.drop (off + W) ++ h0 :: v) < (a.drop (off + W)).length
    · -- the class run stops inside the kept region
      have hRlt : runLen isB64Class (a.drop (off + W)) < (a.drop (off + W)).length ∧
          runLen isB64Class (a.drop (off + W) ++ h0 :: v) =
            runLen isB64Class (a.drop (off + W)) := by
        rw [runLen_append] at hcase ⊢
        by_cases hx : runLen isB64Class (a.drop (off + W)) < (a.drop (off + W)).length
        · rw [if_pos hx] at hcase ⊢
          exact ⟨hx, rfl⟩
        · rw [if_neg hx] at hcase
          simp only [runLen, hclh, if_true] at hcase
          omega
      have hCL2 : runLen isB64Class (a.drop (off + W) ++ '[' :: Y) =
          runLen isB64Class (a.drop (off + W) ++ h0 :: v) := by
        rw [runLen_append, if_pos hRlt.1, hRlt.2]
      rw [hCL2]
      set CL := runLen isB64Class (a.drop (off + W) ++ h0 :: v) with hCL
      by_cases hCL0 : CL = 0
      · rw [if_pos hCL0]
      · rw [if_neg hCL0] at hn ⊢
        have hbase : off + W + CL < a.length := by omega
        have hd1c : (a ++ h0 :: v).drop (off + W + CL) =
            a.drop (off + W + CL) ++ h0 :: v := List.drop_append_of_le_length (by omega)
        have hd2c : (a ++ '[' :: Y).drop (off + W + CL) =
            a.drop (off + W + CL) ++ '[' :: Y := List.drop_append_of_le_length (by omega)
        rw [hd1c] at hn
        rw [hd2c]
        have hb2len : (a.drop (off + W + CL)).length = a.length - (off + W + CL) :=
          List.length_drop _ _
        by_cases hreach : (a.drop (off + W + CL)).length ≤
            runLen (fun c => decide (c = '=')) (a.drop (off + W + CL) ++ h0 :: v)
        · -- the equals run reaches the junction: the original string then has
          -- a word boundary at the junction, so the original call matches
          exfalso
          have hall := runLen_ge_all _ _ _ hreach
          have hb2pos : 0 < (a.drop (off + W + CL)).length := by omega
          obtain ⟨k, hk⟩ : ∃ k, runLen (fun c => decide (c = '='))
              (a.drop (off + W + CL) ++ h0 :: v) = k + 1 :=
            ⟨runLen (fun c => decide (c = '=')) (a.drop (off + W + CL) ++ h0 :: v) - 1,
              by omega⟩
          have hlast : a.get? (a.length - 1) = some '=' := by
            have hg : (a.drop (off + W + CL)).get? ((a.drop (off + W + CL)).length - 1) =
                a.get? (a.length - 1) := by
              rw [get?_drop_bridge]
              congr 1
              omega
            rcases get?_lt_some (a.drop (off + W + CL)) ((a.drop (off + W + CL)).length - 1)
                (by omega) with ⟨c0, hc0⟩
            have hmem : c0 ∈ a.drop (off + W + CL) := by
              rw [List.get?_eq_getElem?] at hc0
              exact List.getElem?_mem hc0
            have := hall c0 hmem
            simp only [decide_eq_true_eq] at this
            rw [← hg, hc0, this]
          have hbAt : bAt (a ++ h0 :: v) a.length = true := by
            unfold bAt
            rw [charW_at_len, charW_lt a _ _ (by omega)]
            unfold charWordAt
            rw [hlast]
            rw [hw]
            decide
          have hE : off + W + CL + (k + 1) = a.length := by
            have hle2 := runLen_fail_le (fun c => decide (c = '=')) h0 heqh
              (a.drop (off + W + CL)) v
            omega
          rw [hk] at hn
          simp only [eqTrial] at hn
          rw [show off + W + CL + k + 1 = a.length by omega, hbAt] at hn
          simp at hn
        · push_neg at hreach
          have hElt : runLen (fun c => decide (c = '=')) (a.drop (off + W + CL)) <
              (a.drop (off + W + CL)).length ∧
              runLen (fun c => decide (c = '=')) (a.drop (off + W + CL) ++ h0 :: v) =
                runLen (fun c => decide (c = '=')) (a.drop (off + W + CL)) := by
            rw [runLen_append] at hreach ⊢
            by_cases hx : runLen (fun c => decide (c = '=')) (a.drop (off + W + CL)) <
                (a.drop (off + W + CL)).length
            · rw [if_pos hx] at hreach ⊢
              exact ⟨hx, rfl⟩
            · rw [if_neg hx] at hreach
              omega
          have hE2 : runLen (fun c => decide (c = '=')) (a.drop (off + W + CL) ++ '[' :: Y) =
              runLen (fun c => decide (c = '=')) (a.drop (off + W + CL) ++ h0 :: v) := by
            rw [runLen_append, if_pos hElt.1, hElt.2]
          rw [hE2]
          set E := runLen (fun c => decide (c = '=')) (a.drop (off + W + CL) ++ h0 :: v) with hE
          have hEj : off + W + CL + E < a.length := by omega
          have heqc : eqTrial (a ++ '[' :: Y) (off + W + CL) E =
              eqTrial (a ++ h0 :: v) (off + W + CL) E := by
            refine eqTrial_congr _ _ _ E (fun p hp => ?_)
            exact bAt_agree a ('[' :: Y) (h0 :: v) p (by omega)
          rw [heqc]
          rcases he : eqTrial (a ++ h0 :: v) (off + W + CL) E with _ | e
          · rw [he] at hn
            simp only [] at hn ⊢
            have hcc : classTrial (a ++ '[' :: Y) (off + W) (CL - 1) =
                classTrial (a ++ h0 :: v) (off + W) (CL - 1) := by
              refine classTrial_congr _ _ _ (CL - 1) (fun p hp => ?_)
              exact bAt_agree a ('[' :: Y) (h0 :: v) p (by omega)
            rw [hcc]
            exact hn
          · rw [he] at hn
            simp at hn
    · -- the class run reaches and passes the junction in the original
      push_neg at hcase
      have hall := runLen_ge_all isB64Class (a.drop (off + W)) (h0 :: v) hcase
      have hRfull : runLen isB64Class (a.drop (off + W)) = (a.drop (off + W)).length :=
        (runLen_eq_length_iff_all isB64Class _).mpr hall
      have hCL2 : runLen isB64Class (a.drop (off + W) ++ '[' :: Y) =
          (a.drop (off + W)).length := by
        rw [runLen_append, if_neg (by omega),
          show runLen isB64Class ('[' :: Y) = 0 from rfl]
        omega
      rw [hCL2]
      by_cases hb0 : (a.drop (off + W)).length = 0
      · rw [if_pos hb0]
      · rw [if_neg hb0]
        have hCL1ge : (a.drop (off + W)).length + 1 ≤
            runLen isB64Class (a.drop (off + W) ++ h0 :: v) := by
          rw [runLen_append, if_neg (by omega)]
          simp only [runLen, hclh, if_true]
          omega
        have hCL10 : runLen isB64Class (a.drop (off + W) ++ h0 :: v) ≠ 0 := by omega
        rw [if_neg hCL10] at hn
        have hjj : off + W + (a.drop (off + W)).length = a.length := by omega
        have hdj : (a ++ '[' :: Y).drop (off + W + (a.drop (off + W)).length) = '[' :: Y := by
          rw [hjj, drop_at_len]
        rw [hdj]
        have hE20 : runLen (fun c => decide (c = '=')) ('[' :: Y) = 0 := rfl
        rw [hE20]
        have hane : a ≠ [] := by
          intro he
          rw [he] at hjj
          simp at hjj
          omega
        have hbAt2 : bAt (a ++ '[' :: Y) a.length = false := by
          unfold bAt
          rw [charW_at_len, charW_lt a _ _ (by omega), last_nonword_charW a hane hl]
          decide
        simp only [eqTrial, hjj, hbAt2, Bool.false_eq_true, if_false]
        -- classTrial on the modified string: every tried end is below the
        -- junction and was already refuted in the original
        rcases hEt : eqTrial (a ++ h0 :: v)
            (off + W + runLen isB64Class (a.drop (off + W) ++ h0 :: v))
            (runLen (fun c => decide (c = '='))
              ((a ++ h0 :: v).drop
                (off + W + runLen isB64Class (a.drop (off + W) ++ h0 :: v)))) with _ | e
        · rw [hEt] at hn
          simp only [] at hn
          have hfacts := (classTrial_none_iff (a ++ h0 :: v) (off + W) _).mp hn
          refine (classTrial_none_iff (a ++ '[' :: Y) (off + W) _).mpr (fun r h1 h2 => ?_)
          rw [bAt_agree a ('[' :: Y) (h0 :: v) ((off + W) + r) (by omega)]
          exact hfacts r h1 (by omega)
        · rw [hEt] at hn
          simp at hn

theorem TR_bearer (a : List Char) (h0 : Char) (v Y : List Char) (w : Bool)
    (hw : isWordChar h0 = true) (hemp : a = [] → w = false)
    (hl : ∀ c, a.getLast? = some c → isWordChar c = false)
    (hn : tryBearer w (a ++ h0 :: v) = none) :
    tryBearer w (a ++ '[' :: Y) = none := by
  cases w
  · rcases a with _ | ⟨a0, a'⟩
    · exact tryBearer_headword '[' Y false (by decide)
    · set a := a0 :: a' with ha
      by_cases hj : a.length < 6
      · unfold tryBearer
        rw [if_neg (by simp)]
        rw [stripCI_junction "bearer".data a Y (by simpa using hj) (by decide)]
      · push_neg at hj
        unfold tryBearer at hn ⊢
        rw [if_neg (by simp)] at hn ⊢
        rw [stripCI_append "bearer".data a (h0 :: v) (by simpa using hj)] at hn
        rw [stripCI_append "bearer".data a ('[' :: Y) (by simpa using hj)]
        rcases hst : stripCI "bearer".data a with _ | r
        · rw [hst] at hn
          rfl
        · rw [hst] at hn
          simp only [Option.map_some'] at hn ⊢
          exact TR_bt a h0 v Y 6 hw hl (by omega) hn
  · exact tryBearer_true _

theorem TR_auth (a : List Char) (h0 : Char) (v Y : List Char) (w : Bool)
    (hw : isWordChar h0 = true) (hemp : a = [] → w = false)
    (hl : ∀ c, a.getLast? = some c → isWordChar c = false)
    (hn : tryAuthorization w (a ++ h0 :: v) = none) :
    tryAuthorization w (a ++ '[' :: Y) = none := by
  cases w
  · rcases a with _ | ⟨a0, a'⟩
    · exact tryAuthorization_headword '[' Y false (by decide)
    · set a := a0 :: a' with ha
      by_cases hj : a.length < 14
      · unfold tryAuthorization
        rw [if_neg (by simp)]
        rw [stripCI_junction "authorization:".data a Y (by simpa using hj) (by decide)]
      · push_neg at hj
        unfold tryAuthorization at hn ⊢
        rw [if_neg (by simp)] at hn ⊢
        simp only [] at hn ⊢
        rw [stripCI_append "authorization:".data a (h0 :: v) (by simpa using hj)] at hn
        rw [stripCI_append "authorization:".data a ('[' :: Y) (by simpa using hj)]
        rcases hst : stripCI "authorization:".data a with _ | r
        · rw [hst] at hn
          rfl
        · rw [hst] at hn
          simp only [Option.map_some'] at hn ⊢
          have hr : r = a.drop 14 := by simpa using stripCI_drop _ a r hst
          have hrlen : r.length = a.length - 14 := by rw [hr, List.length_drop]
          have hsp : isPySpace h0 = false := word_not_space h0 hw
          have hw0 : runLen isPySpace (r ++ '[' :: Y) = runLen isPySpace (r ++ h0 :: v) :=
            (runLen_junction isPySpace '[' h0 (by decide) hsp r Y v)
          rw [hw0]
          set W0 := runLen isPySpace (r ++ h0 :: v) with hW0d
          have hW0le : W0 ≤ r.length := by
            have hb := runLen_fail_le isPySpace h0 hsp r v
            omega
          have hdr1 : (r ++ h0 :: v).drop W0 = r.drop W0 ++ h0 :: v :=
            List.drop_append_of_le_length hW0le
          have hdr2 : (r ++ '[' :: Y).drop W0 = r.drop W0 ++ '[' :: Y :=
            List.drop_append_of_le_length hW0le
          rw [hdr1] at hn
          rw [hdr2]
          have hb5len : (r.drop W0).length = r.length - W0 := List.length_drop _ _
          by_cases hj6 : (r.drop W0).length < 6
          · rw [stripCI_junction "bearer".data (r.drop W0) Y (by simpa using hj6) (by decide)]
          · push_neg at hj6
            rw [stripCI_append "bearer".data (r.drop W0) (h0 :: v) (by simpa using hj6)] at hn
            rw [stripCI_append "bearer".data (r.drop W0) ('[' :: Y) (by simpa using hj6)]
            rcases hst2 : stripCI "bearer".data (r.drop W0) with _ | r2
            · rw [hst2] at hn
              rfl
            · rw [hst2] at hn
              simp only [Option.map_some'] at hn ⊢
              exact TR_bt a h0 v Y (14 + W0 + 6) hw hl (by omega) hn
  · exact tryAuthorization_true _

theorem TR_kt (a : List Char) (h0 : Char) (v Y : List Char) (p : Nat)
    (hw : isWordChar h0 = true)
    (hl : ∀ c, a.getLast? = some c → isWordChar c = false)
    (hp : p ≤ a.length)
    (hn : keyTail (a ++ h0 :: v) p = none) :
    keyTail (a ++ '[' :: Y) p = none := by
  have hd1 : (a ++ h0 :: v).drop p = a.drop p ++ h0 :: v :=
    List.drop_append_of_le_length hp
  have hd2 : (a ++ '[' :: Y).drop p = a.drop p ++ '[' :: Y :=
    List.drop_append_of_le_length hp
  have hblen : (a.drop p).length = a.length - p := List.length_drop _ _
  unfold keyTail at hn ⊢
  rw [hd1] at hn
  rw [hd2]
  by_cases hj3 : (a.drop p).length < 3
  · rw [stripCI_junction "key".data (a.drop p) Y (by simpa using hj3) (by decide)]
  · push_neg at hj3
    rw [stripCI_append "key".data (a.drop p) (h0 :: v) (by simpa using hj3)] at hn
    rw [stripCI_append "key".data (a.drop p) ('[' :: Y) (by simpa using hj3)]
    rcases hst : stripCI "key".data (a.drop p) with _ | r
    · rw [hst] at hn
      rfl
    · rw [hst] at hn
      simp only [Option.map_some'] at hn ⊢
      by_cases hpe : p + 3 = a.length
      · exfalso
        obtain ⟨cy, hcy, hcyl⟩ := stripCI_charAt "key".data (a.drop p) r hst 2 'y' rfl
        rw [get?_drop_bridge] at hcy
        have hcyw : isWordChar cy = true := word_of_toLower cy 'y' (by decide) hcyl
        have hane : a ≠ [] := by
          intro he
          rw [he] at hpe
          simp at hpe
        rcases hgl : a.getLast? with _ | lc
        · rw [List.getLast?_eq_none_iff] at hgl
          exact hane hgl
        · have hlw := hl lc hgl
          rw [List.getLast?_eq_getElem?] at hgl
          have : a.get? (p + 2) = a[a.length - 1]? := by
            rw [List.get?_eq_getElem?]
            congr 1
            omega
          rw [this, hgl] at hcy
          injection hcy with hcy
          rw [← hcy] at hcyw
          rw [hcyw] at hlw
          simp at hlw
      · have hlt : p + 3 < a.length := by omega
        rw [show bAt (a ++ '[' :: Y) (p+3) = bAt (a ++ h0 :: v) (p+3) from
          bAt_agree a ('[' :: Y) (h0 :: v) (p+3) hlt]
        rcases hb : bAt (a ++ h0 :: v) (p+3) with _ | _
        · simp [hb]
        · rw [hb] at hn
          simp only [if_true] at hn ⊢
          exact TR_sep a h0 v Y (p+3) hw hlt hn

theorem TR_akf (a : List Char) (h0 : Char) (v Y : List Char) (g : Nat)
    (hw : isWordChar h0 = true)
    (hl : ∀ c, a.getLast? = some c → isWordChar c = false)
    (hg : g ≤ a.length)
    (hn : apiKeyFrom (a ++ h0 :: v) g = none) :
    apiKeyFrom (a ++ '[' :: Y) g = none := by
  unfold apiKeyFrom at hn ⊢
  by_cases hge : g = a.length
  · subst hge
    rw [get?_at_len]
    simp only []
    rw [if_neg (by decide)]
    unfold keyTail
    rw [drop_at_len]
    have hkj : stripCI "key".data ('[' :: Y) = none := by
      have hj0 := stripCI_junction "key".data [] Y (by simp) (by decide)
      simpa using hj0
    rw [hkj]
  · have hlt : g < a.length := by omega
    obtain ⟨c, hc⟩ := get?_lt_some a g hlt
    have hc1 : (a ++ h0 :: v).get? g = some c := by rw [get?_append_lt _ _ _ hlt, hc]
    have hc2 : (a ++ '[' :: Y).get? g = some c := by rw [get?_append_lt _ _ _ hlt, hc]
    rw [hc1] at hn
    rw [hc2]
    simp only [] at hn ⊢
    by_cases hsep : (decide (c = '-') || decide (c = '_') || decide (c = ' ')) = true
    · rw [if_pos hsep] at hn ⊢
      rcases hk1 : keyTail (a ++ h0 :: v) (g+1) with _ | e
      · rw [hk1] at hn
        rw [TR_kt a h0 v Y (g+1) hw hl (by omega) hk1]
        exact TR_kt a h0 v Y g hw hl (by omega) hn
      · rw [hk1] at hn
        simp at hn
    · rw [if_neg hsep] at hn ⊢
      exact TR_kt a h0 v Y g hw hl (by omega) hn

theorem TR_apikey (a : List Char) (h0 : Char) (v Y : List Char) (w : Bool)
    (hw : isWordChar h0 = true) (hemp : a = [] → w = false)
    (hl : ∀ c, a.getLast? = some c → isWordChar c = false)
    (hn : tryApiKey w (a ++ h0 :: v) = none) :
    tryApiKey w (a ++ '[' :: Y) = none := by
  cases w
  · rcases a with _ | ⟨a0, a'⟩
    · exact tryApiKey_headword '[' Y false (by decide)
    · set a := a0 :: a' with ha
      have hane : a ≠ [] := by simp [ha]
      unfold tryApiKey at hn ⊢
      rw [if_neg (by simp)] at hn ⊢
      by_cases hj3 : a.length < 3
      · rw [stripCI_junction "openai".data a Y (by simpa using (by omega : a.length < 6)) (by decide)]
        rw [stripCI_junction "api".data a Y (by simpa using hj3) (by decide)]
      · push_neg at hj3
        by_cases hj6 : a.length < 6
        · rw [stripCI_junction "openai".data a Y (by simpa using hj6) (by decide)]
          rw [stripCI_append "api".data a ('[' :: Y) (by simpa using hj3)]
          rcases hsa : stripCI "api".data a with _ | r
          · rfl
          · simp only [Option.map_some']
            rcases hso : stripCI "openai".data (a ++ h0 :: v) with _ | r2
            · rw [hso] at hn
              simp only [] at hn
              rw [stripCI_append "api".data a (h0 :: v) (by simpa using hj3), hsa] at hn
              simp only [Option.map_some'] at hn
              exact TR_akf a h0 v Y 3 hw hl (by omega) hn
            · exfalso
              obtain ⟨ca, hca, hcal⟩ := stripCI_charAt "api".data a r hsa 0 'a' rfl
              obtain ⟨co, hco, hcol⟩ := stripCI_charAt "openai".data (a ++ h0 :: v) r2 hso 0 'o' rfl
              rw [get?_append_lt a (h0 :: v) 0 (by omega)] at hco
              rw [hca] at hco
              injection hco with hco
              rw [← hco, hcal] at hcol
              exact absurd hcol (by decide)
        · push_neg at hj6
          rw [stripCI_append "openai".data a (h0 :: v) (by simpa using hj6)] at hn
          rw [stripCI_append "openai".data a ('[' :: Y) (by simpa using hj6)]
          rcases hso : stripCI "openai".data a with _ | r
          · rw [hso] at hn
            simp only [Option.map_none'] at hn ⊢
            rw [stripCI_append "api".data a (h0 :: v) (by simpa using hj3)] at hn
            rw [stripCI_append "api".data a ('[' :: Y) (by simpa using hj3)]
            rcases hsa : stripCI "api".data a with _ | r2
            · rw [hsa] at hn
              rfl
            · rw [hsa] at hn
              simp only [Option.map_some'] at hn ⊢
              exact TR_akf a h0 v Y 3 hw hl (by omega) hn
          · rw [hso] at hn
            simp only [Option.map_some'] at hn ⊢
            rcases hak : apiKeyFrom (a ++ h0 :: v) 6 with _ | e
            · rw [hak] at hn
              simp only [] at hn
              rw [TR_akf a h0 v Y 6 hw hl (by omega) hak]
              have hsa : stripCI "api".data a = none := by
                rcases hsa2 : stripCI "api".data a with _ | r3
                · rfl
                · exfalso
                  obtain ⟨ca, hca, hcal⟩ := stripCI_charAt "api".data a r3 hsa2 0 'a' rfl
                  obtain ⟨co, hco, hcol⟩ := stripCI_charAt "openai".data a r hso 0 'o' rfl
                  rw [hca] at hco
                  injection hco with hco
                  rw [← hco, hcal] at hcol
                  exact absurd hcol (by decide)
              rw [stripCI_append "api".data a ('[' :: Y) (by simpa using hj3), hsa]
              rfl
            · rw [hak] at hn
              simp at hn
  · exact tryApiKey_true _

theorem charW_cons_succ (c : Char) (rest : List Char) (i : Nat) :
    charWordAt (c :: rest) (i + 1) = charWordAt rest i := by
  unfold charWordAt
  rw [List.get?_cons_succ]

theorem charW_cons_zero (c : Char) (rest : List Char) :
    charWordAt (c :: rest) 0 = isWordChar c := by
  unfold charWordAt
  rw [List.get?_cons_zero]

theorem STRUCT0 (tryM : Bool → List Char → Option Nat)
    (hNZ : ∀ (w : Bool) (s : List Char), tryM w s ≠ some 0)
    (hMH : ∀ (w : Bool) (c : Char) (t : List Char) (m : Nat),
      tryM w (c :: t) = some m → w = false ∧ isWordChar c = true) :
    ∀ (s : List Char) (w : Bool),
      scanP tryM w 0 s = s ∨
      ∃ (x : List Char) (h0 : Char) (u Z : List Char),
        s = x ++ h0 :: u ∧
        scanP tryM w 0 s = x ++ '[' :: Z ∧
        isWordChar h0 = true ∧
        (x = [] → w = false) ∧
        (∀ c, x.getLast? = some c → isWordChar c = false) := by
  intro s
  induction s with
  | nil => intro w; left; rfl
  | cons c rest ih =>
    intro w
    rcases htm : tryM w (c :: rest) with _ | m
    · rcases ih (isWordChar c) with hid | ⟨x, h0, u, Z, hs, ho, hw0, hx0, hxl⟩
      · left
        simp only [scanP, htm, hid]
      · right
        refine ⟨c :: x, h0, u, Z, by rw [List.cons_append, ← hs], ?_, hw0, by simp, ?_⟩
        · simp only [scanP, htm, ho, List.cons_append]
        · intro lc hlc
          rcases x with _ | ⟨x0, x'⟩
          · simp only [List.getLast?_singleton, Option.some.injEq] at hlc
            rw [← hlc]
            exact hx0 rfl
          · rw [List.getLast?_cons_cons] at hlc
            exact hxl lc hlc
    · rcases m with _ | n
      · exact absurd htm (hNZ w (c :: rest))
      · right
        obtain ⟨hwf, hcw⟩ := hMH w c rest (n+1) htm
        refine ⟨[], c, rest, "REDACTED]".data ++ scanP tryM (isWordChar c) n rest,
          by simp, ?_, hcw, fun _ => hwf, by simp⟩
        simp only [scanP, htm, List.nil_append]
        rfl

theorem SAMEG (tryX : Bool → List Char → Option Nat)
    (hNZ : ∀ (w : Bool) (s : List Char), tryX w s ≠ some 0)
    (hMH : ∀ (w : Bool) (c : Char) (t : List Char) (m : Nat),
      tryX w (c :: t) = some m → w = false ∧ isWordChar c = true)
    (hAF : ∀ (w : Bool) (s : List Char) (m : Nat), tryX w s = some m →
      1 ≤ m ∧ (charWordAt s (m-1) = true → charWordAt s m = false))
    (hBH : ∀ i, i ≤ 9 → ∀ (w : Bool) (Y : List Char),
      tryX w (redactedChars.drop i ++ Y) = none)
    (hHW : ∀ (c : Char) (t : List Char) (w : Bool), isWordChar c = false →
      tryX w (c :: t) = none)
    (hTR : ∀ (a : List Char) (h0 : Char) (v Y : List Char) (w : Bool),
      isWordChar h0 = true → (a = [] → w = false) →
      (∀ c, a.getLast? = some c → isWordChar c = false) →
      tryX w (a ++ h0 :: v) = none → tryX w (a ++ '[' :: Y) = none)
    (hT : ∀ s, tryX true s = none) :
    ∀ (s : List Char) (w1 w2 : Bool) (k : Nat),
      (w2 = true → w1 = true ∧ k = 0) →
      (1 ≤ k → charWordAt s (k-1) = true → charWordAt s k = false) →
      (k = 0 → w2 = false → w1 = true →
        ∀ c t, s = c :: t → isWordChar c = false) →
      noMatchB tryX w2 (scanP tryX w1 k s) := by
  intro s
  induction s with
  | nil =>
    intro w1 w2 k _ _ _
    simp [scanP, noMatchB]
  | cons c rest ih =>
    intro w1 w2 k hC1 hC2 hC3
    rcases k with _ | k'
    · rcases htm : tryX w1 (c :: rest) with _ | m
      · have hT2 : noMatchB tryX (isWordChar c) (scanP tryX (isWordChar c) 0 rest) := by
          refine ih (isWordChar c) (isWordChar c) 0 (fun h => ⟨h, rfl⟩) (by omega) ?_
          intro _ hw2 hw1
          rw [hw2] at hw1
          simp at hw1
        have hout : scanP tryX w1 0 (c :: rest) = c :: scanP tryX (isWordChar c) 0 rest := by
          simp only [scanP, htm]
        rw [hout]
        refine ⟨?_, hT2⟩
        cases w2 with
        | true => exact Or.inl (hT _)
        | false =>
          cases w1 with
          | true =>
            have hcw := hC3 rfl rfl rfl c rest rfl
            exact Or.inl (hHW c _ false hcw)
          | false =>
            rcases STRUCT0 tryX hNZ hMH rest (isWordChar c) with hid |
                ⟨x, h0, u, Z, hs, ho, hw0, hx0, hxl⟩
            · rw [hid]
              exact Or.inl htm
            · rw [ho]
              have hlast : ∀ lc, (c :: x).getLast? = some lc → isWordChar lc = false := by
                intro lc hlc
                rcases x with _ | ⟨x0, x'⟩
                · simp only [List.getLast?_singleton, Option.some.injEq] at hlc
                  rw [← hlc]
                  exact hx0 rfl
                · rw [List.getLast?_cons_cons] at hlc
                  exact hxl lc hlc
              have hrej : tryX false ((c :: x) ++ h0 :: u) = none := by
                rw [List.cons_append, ← hs]
                exact htm
              have hres := hTR (c :: x) h0 u Z false hw0 (by simp) hlast hrej
              rw [List.cons_append] at hres
              exact Or.inl hres
      · rcases m with _ | n
        · exact absurd htm (hNZ w1 (c :: rest))
        · have hout : scanP tryX w1 0 (c :: rest) =
              redactedChars ++ scanP tryX (isWordChar c) n rest := by
            simp only [scanP, htm]
          rw [hout]
          obtain ⟨hm1, hAFimp⟩ := hAF w1 (c :: rest) (n+1) htm
          have hZ : noMatchB tryX false (scanP tryX (isWordChar c) n rest) := by
            refine ih (isWordChar c) false n (by simp) ?_ ?_
            · intro hk1 hcw
              have he1 : charWordAt (c :: rest) n = true := by
                rw [show n = (n-1) + 1 by omega, charW_cons_succ]
                exact hcw
              have he2 := hAFimp (by simpa using he1)
              rw [show n + 1 = n + 1 from rfl, charW_cons_succ] at he2
              exact he2
            · intro hn0 _ hw1c c2 t2 hrest
              subst hn0
              have he1 : charWordAt (c :: rest) 0 = true := by
                rw [charW_cons_zero]
                exact hw1c
              have he2 := hAFimp (by simpa using he1)
              rw [charW_cons_succ] at he2
              rw [hrest, charW_cons_zero] at he2
              exact he2
          exact noMatchB_red tryX hBH _ hZ w2
    · have hout : scanP tryX w1 (k'+1) (c :: rest) = scanP tryX (isWordChar c) k' rest := rfl
      rw [hout]
      refine ih (isWordChar c) w2 k' ?_ ?_ ?_
      · intro hw2t
        exact absurd (hC1 hw2t).2 (by omega)
      · intro hk1 hcw
        have hstep := hC2 (by omega)
        rw [show k' + 1 - 1 = k' from rfl] at hstep
        have he1 : charWordAt (c :: rest) k' = true := by
          rw [show k' = (k'-1) + 1 by omega, charW_cons_succ]
          exact hcw
        have he2 := hstep he1
        rw [charW_cons_succ] at he2
        exact he2
      · intro hk0 hw2f hw1t c2 t2 hrest
        subst hk0
        have hstep := hC2 (by omega)
        rw [show (0:Nat) + 1 - 1 = 0 from rfl] at hstep
        have he1 : charWordAt (c :: rest) 0 = true := by
          rw [charW_cons_zero]
          exact hw1t
        have he2 := hstep he1
        rw [charW_cons_succ] at he2
        rw [hrest, charW_cons_zero] at he2
        exact he2

theorem PRESG (tryM tryX : Bool → List Char → Option Nat)
    (hNZM : ∀ (w : Bool) (s : List Char), tryM w s ≠ some 0)
    (hMHM : ∀ (w : Bool) (c : Char) (t : List Char) (m : Nat),
      tryM w (c :: t) = some m → w = false ∧ isWordChar c = true)
    (hAFM : ∀ (w : Bool) (s : List Char) (m : Nat), tryM w s = some m →
      1 ≤ m ∧ (charWordAt s (m-1) = true → charWordAt s m = false))
    (hNZX : ∀ (w : Bool) (s : List Char), tryX w s ≠ some 0)
    (hBH : ∀ i, i ≤ 9 → ∀ (w : Bool) (Y : List Char),
      tryX w (redactedChars.drop i ++ Y) = none)
    (hHW : ∀ (c : Char) (t : List Char) (w : Bool), isWordChar c = false →
      tryX w (c :: t) = none)
    (hTR : ∀ (a : List Char) (h0 : Char) (v Y : List Char) (w : Bool),
      isWordChar h0 = true → (a = [] → w = false) →
      (∀ c, a.getLast? = some c → isWordChar c = false) →
      tryX w (a ++ h0 :: v) = none → tryX w (a ++ '[' :: Y) = none)
    (hT : ∀ s, tryX true s = none) :
    ∀ (s : List Char) (w1 w2 : Bool) (k : Nat),
      noMatchB tryX w1 s →
      (w2 = true → w1 = true ∧ k = 0) →
      (1 ≤ k → charWordAt s (k-1) = true → charWordAt s k = false) →
      (k = 0 → w2 = false → w1 = true →
        ∀ c t, s = c :: t → isWordChar c = false) →
      noMatchB tryX w2 (scanP tryM w1 k s) := by
  intro s
  induction s with
  | nil =>
    intro w1 w2 k _ _ _ _
    simp [scanP, noMatchB]
  | cons c rest ih =>
    intro w1 w2 k hNM hC1 hC2 hC3
    obtain ⟨hh, ht⟩ := hNM
    rcases k with _ | k'
    · rcases htm : tryM w1 (c :: rest) with _ | m
      · have hT2 : noMatchB tryX (isWordChar c) (scanP tryM (isWordChar c) 0 rest) := by
          refine ih (isWordChar c) (isWordChar c) 0 ht (fun h => ⟨h, rfl⟩) (by omega) ?_
          intro _ hw2 hw1
          rw [hw2] at hw1
          simp at hw1
        have hout : scanP tryM w1 0 (c :: rest) = c :: scanP tryM (isWordChar c) 0 rest := by
          simp only [scanP, htm]
        rw [hout]
        refine ⟨?_, hT2⟩
        cases w2 with
        | true => exact Or.inl (hT _)
        | false =>
          cases w1 with
          | true =>
            have hcw := hC3 rfl rfl rfl c rest rfl
            exact Or.inl (hHW c _ false hcw)
          | false =>
            have hrejX : tryX false (c :: rest) = none := by
              rcases hh with hh | hh
              · exact hh
              · exact absurd hh (hNZX false (c :: rest))
            rcases STRUCT0 tryM hNZM hMHM rest (isWordChar c) with hid |
                ⟨x, h0, u, Z, hs, ho, hw0, hx0, hxl⟩
            · rw [hid]
              exact Or.inl hrejX
            · rw [ho]
              have hlast : ∀ lc, (c :: x).getLast? = some lc → isWordChar lc = false := by
                intro lc hlc
                rcases x with _ | ⟨x0, x'⟩
                · simp only [List.getLast?_singleton, Option.some.injEq] at hlc
                  rw [← hlc]
                  exact hx0 rfl
                · rw [List.getLast?_cons_cons] at hlc
                  exact hxl lc hlc
              have hrej : tryX false ((c :: x) ++ h0 :: u) = none := by
                rw [List.cons_append, ← hs]
                exact hrejX
              have hres := hTR (c :: x) h0 u Z false hw0 (by simp) hlast hrej
              rw [List.cons_append] at hres
              exact Or.inl hres
      · rcases m with _ | n
        · exact absurd htm (hNZM w1 (c :: rest))
        · have hout : scanP tryM w1 0 (c :: rest) =
              redactedChars ++ scanP tryM (isWordChar c) n rest := by
            simp only [scanP, htm]
          rw [hout]
          obtain ⟨hm1, hAFimp⟩ := hAFM w1 (c :: rest) (n+1) htm
          have hZ : noMatchB tryX false (scanP tryM (isWordChar c) n rest) := by
            refine ih (isWordChar c) false n ht (by simp) ?_ ?_
            · intro hk1 hcw
              have he1 : charWordAt (c :: rest) n = true := by
                rw [show n = (n-1) + 1 by omega, charW_cons_succ]
                exact hcw
              have he2 := hAFimp (by simpa using he1)
              rw [show n + 1 = n + 1 from rfl, charW_cons_succ] at he2
              exact he2
            · intro hn0 _ hw1c c2 t2 hrest
              subst hn0
              have he1 : charWordAt (c :: rest) 0 = true := by
                rw [charW_cons_zero]
                exact hw1c
              have he2 := hAFimp (by simpa using he1)
              rw [charW_cons_succ] at he2
              rw [hrest, charW_cons_zero] at he2
              exact he2
          exact noMatchB_red tryX hBH _ hZ w2
    · have hout : scanP tryM w1 (k'+1) (c :: rest) = scanP tryM (isWordChar c) k' rest := rfl
      rw [hout]
      refine ih (isWordChar c) w2 k' ht ?_ ?_ ?_
      · intro hw2t
        exact absurd (hC1 hw2t).2 (by omega)
      · intro hk1 hcw
        have hstep := hC2 (by omega)
        rw [show k' + 1 - 1 = k' from rfl] at hstep
        have he1 : charWordAt (c :: rest) k' = true := by
          rw [show k' = (k'-1) + 1 by omega, charW_cons_succ]
          exact hcw
        have he2 := hstep he1
        rw [charW_cons_succ] at he2
        exact he2
      · intro hk0 hw2f hw1t c2 t2 hrest
        subst hk0
        have hstep := hC2 (by omega)
        rw [show (0:Nat) + 1 - 1 = 0 from rfl] at hstep
        have he1 : charWordAt (c :: rest) 0 = true := by
          rw [charW_cons_zero]
          exact hw1t
        have he2 := hstep he1
        rw [charW_cons_succ] at he2
        rw [hrest, charW_cons_zero] at he2
        exact he2

theorem nz_auth : ∀ (w : Bool) (s : List Char), tryAuthorization w s ≠ some 0 := by
  intro w s h
  have := (tryAuthorization_after s w 0 h).1
  omega

theorem nz_bearer : ∀ (w : Bool) (s : List Char), tryBearer w s ≠ some 0 := by
  intro w s h
  have := (tryBearer_after s w 0 h).1
  omega

theorem nz_akia : ∀ (w : Bool) (s : List Char), tryAkia w s ≠ some 0 := by
  intro w s h
  have := (tryAkia_after s w 0 h).1
  omega

theorem nz_apikey : ∀ (w : Bool) (s : List Char), tryApiKey w s ≠ some 0 := by
  intro w s h
  have := (tryApiKey_after s w 0 h).1
  omega

theorem nz_token : ∀ (w : Bool) (s : List Char), tryToken w s ≠ some 0 := by
  intro w s h
  have := (tryToken_after s w 0 h).1
  omega

theorem mhW_auth : ∀ (w : Bool) (c : Char) (t : List Char) (m : Nat),
    tryAuthorization w (c :: t) = some m → w = false ∧ isWordChar c = true :=
  fun w c t m => tryAuthorization_matchhead c t w m

theorem mhW_bearer : ∀ (w : Bool) (c : Char) (t : List Char) (m : Nat),
    tryBearer w (c :: t) = some m → w = false ∧ isWordChar c = true :=
  fun w c t m => tryBearer_matchhead c t w m

theorem mhW_akia : ∀ (w : Bool) (c : Char) (t : List Char) (m : Nat),
    tryAkia w (c :: t) = some m → w = false ∧ isWordChar c = true :=
  fun w c t m => tryAkia_matchhead c t w m

theorem mhW_apikey : ∀ (w : Bool) (c : Char) (t : List Char) (m : Nat),
    tryApiKey w (c :: t) = some m → w = false ∧ isWordChar c = true :=
  fun w c t m => tryApiKey_matchhead c t w m

theorem mhW_token : ∀ (w : Bool) (c : Char) (t : List Char) (m : Nat),
    tryToken w (c :: t) = some m → w = false ∧ isWordChar c = true :=
  fun w c t m => tryToken_matchhead c t w m

theorem afW_auth : ∀ (w : Bool) (s : List Char) (m : Nat), tryAuthorization w s = some m →
    1 ≤ m ∧ (charWordAt s (m-1) = true → charWordAt s m = false) :=
  fun w s m => tryAuthorization_after s w m

theorem afW_bearer : ∀ (w : Bool) (s : List Char) (m : Nat), tryBearer w s = some m →
    1 ≤ m ∧ (charWordAt s (m-1) = true → charWordAt s m = false) :=
  fun w s m => tryBearer_after s w m

theorem afW_akia : ∀ (w : Bool) (s : List Char) (m : Nat), tryAkia w s = some m →
    1 ≤ m ∧ (charWordAt s (m-1) = true → charWordAt s m = false) :=
  fun w s m => tryAkia_after s w m

theorem afW_apikey : ∀ (w : Bool) (s : List Char) (m : Nat), tryApiKey w s = some m →
    1 ≤ m ∧ (charWordAt s (m-1) = true → charWordAt s m = false) :=
  fun w s m => tryApiKey_after s w m

theorem afW_token : ∀ (w : Bool) (s : List Char) (m : Nat), tryToken w s = some m →
    1 ≤ m ∧ (charWordAt s (m-1) = true → charWordAt s m = false) :=
  fun w s m => tryToken_after s w m

theorem same_auth (s : List Char) :
    noMatchB tryAuthorization false (subPattern tryAuthorization s) := by
  unfold subPattern
  refine SAMEG tryAuthorization nz_auth mhW_auth afW_auth tryAuthorization_blockhead
    tryAuthorization_headword TR_auth tryAuthorization_true s false false 0
    ?_ ?_ ?_
  · intro h; simp at h
  · intro h; exact absurd h (by omega)
  · intro _ _ h; exact absurd h (by simp)

theorem same_bearer (s : List Char) :
    noMatchB tryBearer false (subPattern tryBearer s) := by
  unfold subPattern
  refine SAMEG tryBearer nz_bearer mhW_bearer afW_bearer tryBearer_blockhead
    tryBearer_headword TR_bearer tryBearer_true s false false 0 ?_ ?_ ?_
  · intro h; simp at h
  · intro h; exact absurd h (by omega)
  · intro _ _ h; exact absurd h (by simp)

theorem same_akia (s : List Char) :
    noMatchB tryAkia false (subPattern tryAkia s) := by
  unfold subPattern
  refine SAMEG tryAkia nz_akia mhW_akia afW_akia tryAkia_blockhead
    tryAkia_headword TR_akia tryAkia_true s false false 0 ?_ ?_ ?_
  · intro h; simp at h
  · intro h; exact absurd h (by omega)
  · intro _ _ h; exact absurd h (by simp)

theorem same_apikey (s : List Char) :
    noMatchB tryApiKey false (subPattern tryApiKey s) := by
  unfold subPattern
  refine SAMEG tryApiKey nz_apikey mhW_apikey afW_apikey tryApiKey_blockhead
    tryApiKey_headword TR_apikey tryApiKey_true s false false 0 ?_ ?_ ?_
  · intro h; simp at h
  · intro h; exact absurd h (by omega)
  · intro _ _ h; exact absurd h (by simp)

theorem same_token (s : List Char) :
    noMatchB tryToken false (subPattern tryToken s) := by
  unfold subPattern
  refine SAMEG tryToken nz_token mhW_token afW_token tryToken_blockhead
    tryToken_headword TR_token tryToken_true s false false 0 ?_ ?_ ?_
  · intro h; simp at h
  · intro h; exact absurd h (by omega)
  · intro _ _ h; exact absurd h (by simp)

theorem pres_auth (tryM : Bool → List Char → Option Nat)
    (hNZM : ∀ (w : Bool) (s : List Char), tryM w s ≠ some 0)
    (hMHM : ∀ (w : Bool) (c : Char) (t : List Char) (m : Nat),
      tryM w (c :: t) = some m → w = false ∧ isWordChar c = true)
    (hAFM : ∀ (w : Bool) (s : List Char) (m : Nat), tryM w s = some m →
      1 ≤ m ∧ (charWordAt s (m-1) = true → charWordAt s m = false))
    (s : List Char) (h : noMatchB tryAuthorization false s) :
    noMatchB tryAuthorization false (subPattern tryM s) := by
  unfold subPattern
  refine PRESG tryM tryAuthorization hNZM hMHM hAFM nz_auth tryAuthorization_blockhead
    tryAuthorization_headword TR_auth tryAuthorization_true s false false 0 h ?_ ?_ ?_
  · intro h2; simp at h2
  · intro h2; exact absurd h2 (by omega)
  · intro _ _ h2; exact absurd h2 (by simp)

theorem pres_bearer (tryM : Bool → List Char → Option Nat)
    (hNZM : ∀ (w : Bool) (s : List Char), tryM w s ≠ some 0)
    (hMHM : ∀ (w : Bool) (c : Char) (t : List Char) (m : Nat),
      tryM w (c :: t) = some m → w = false ∧ isWordChar c = true)
    (hAFM : ∀ (w : Bool) (s : List Char) (m : Nat), tryM w s = some m →
      1 ≤ m ∧ (charWordAt s (m-1) = true → charWordAt s m = false))
    (s : List Char) (h : noMatchB tryBearer false s) :
    noMatchB tryBearer false (subPattern tryM s) := by
  unfold subPattern
  refine PRESG tryM tryBearer hNZM hMHM hAFM nz_bearer tryBearer_blockhead
    tryBearer_headword TR_bearer tryBearer_true s false false 0 h ?_ ?_ ?_
  · intro h2; simp at h2
  · intro h2; exact absurd h2 (by omega)
  · intro _ _ h2; exact absurd h2 (by simp)

theorem pres_akia (tryM : Bool → List Char → Option Nat)
    (hNZM : ∀ (w : Bool) (s : List Char), tryM w s ≠ some 0)
    (hMHM : ∀ (w : Bool) (c : Char) (t : List Char) (m : Nat),
      tryM w (c :: t) = some m → w = false ∧ isWordChar c = true)
    (hAFM : ∀ (w : Bool) (s : List Char) (m : Nat), tryM w s = some m →
      1 ≤ m ∧ (charWordAt s (m-1) = true → charWordAt s m = false))
    (s : List Char) (h : noMatchB tryAkia false s) :
    noMatchB tryAkia false (subPattern tryM s) := by
  unfold subPattern
  refine PRESG tryM tryAkia hNZM hMHM hAFM nz_akia tryAkia_blockhead
    tryAkia_headword TR_akia tryAkia_true s false false 0 h ?_ ?_ ?_
  · intro h2; simp at h2
  · intro h2; exact absurd h2 (by omega)
  · intro _ _ h2; exact absurd h2 (by simp)

theorem pres_apikey (tryM : Bool → List Char → Option Nat)
    (hNZM : ∀ (w : Bool) (s : List Char), tryM w s ≠ some 0)
    (hMHM : ∀ (w : Bool) (c : Char) (t : List Char) (m : Nat),
      tryM w (c :: t) = some m → w = false ∧ isWordChar c = true)
    (hAFM : ∀ (w : Bool) (s : List Char) (m : Nat), tryM w s = some m →
      1 ≤ m ∧ (charWordAt s (m-1) = true → charWordAt s m = false))
    (s : List Char) (h : noMatchB tryApiKey false s) :
    noMatchB tryApiKey false (subPattern tryM s) := by
  unfold subPattern
  refine PRESG tryM tryApiKey hNZM hMHM hAFM nz_apikey tryApiKey_blockhead
    tryApiKey_headword TR_apikey tryApiKey_true s false false 0 h ?_ ?_ ?_
  · intro h2; simp at h2
  · intro h2; exact absurd h2 (by omega)
  · intro _ _ h2; exact absurd h2 (by simp)

theorem redactL_idem (s : List Char) : redactL (redactL s) = redactL s := by
  have n1 : noMatchB tryAuthorization false (redactL s) := by
    unfold redactL
    exact pres_auth tryToken nz_token mhW_token afW_token _
      (pres_auth tryApiKey nz_apikey mhW_apikey afW_apikey _
        (pres_auth tryAkia nz_akia mhW_akia afW_akia _
          (pres_auth tryBearer nz_bearer mhW_bearer afW_bearer _
            (same_auth s))))
  have n2 : noMatchB tryBearer false (redactL s) := by
    unfold redactL
    exact pres_bearer tryToken nz_token mhW_token afW_token _
      (pres_bearer tryApiKey nz_apikey mhW_apikey afW_apikey _
        (pres_bearer tryAkia nz_akia mhW_akia afW_akia _
          (same_bearer _)))
  have n3 : noMatchB tryAkia false (redactL s) := by
    unfold redactL
    exact pres_akia tryToken nz_token mhW_token afW_token _
      (pres_akia tryApiKey nz_apikey mhW_apikey afW_apikey _
        (same_akia _))
  have n4 : noMatchB tryApiKey false (redactL s) := by
    unfold redactL
    exact pres_apikey tryToken nz_token mhW_token afW_token _
      (same_apikey _)
  have n5 : noMatchB tryToken false (redactL s) := by
    unfold redactL
    exact same_token _
  have hsub : ∀ (tryM : Bool → List Char → Option Nat) (t : List Char),
      noMatchB tryM false t → subPattern tryM t = t :=
    fun tryM t h => noMatch_scan_id tryM t false h
  calc redactL (redactL s)
      = subPattern tryToken (subPattern tryApiKey (subPattern tryAkia
          (subPattern tryBearer (subPattern tryAuthorization (redactL s))))) := rfl
    _ = redactL s := by
        rw [hsub _ _ n1, hsub _ _ n2, hsub _ _ n3, hsub _ _ n4, hsub _ _ n5]

/-- C6: the secret redactor of `_redact_secrets` is a pure total function
(the embedding is a total Lean function on strings) and is idempotent:
redacting an already-redacted string returns it unchanged. -/
theorem C6_redactor_idempotent (x : String) :
    _redact_secrets (_redact_secrets x) = _redact_secrets x := by
  unfold _redact_secrets
  have hd : (String.mk (redactL x.data)).data = redactL x.data := rfl
  rw [hd, redactL_idem]
